import Mathlib

/-!
# Verification of the plum reverse-mode autodiff core (`src/plum/core.py`)

This file gives a shallow embedding of the graph-construction and backward
engine of `plum/core.py` and proves/refutes the frozen claims about it.

Modelling conventions:

* The opaque numeric array is modelled as a 0-dimensional rational value
  (`Data := ℚ`).  Shape/broadcasting semantics of the numpy kernels are out
  of scope of the spec ("opaque numeric array"); every concrete test in the
  spec uses 0-dimensional scalars, where `np.ones_like` is `1` and
  elementwise sum is `+`.
* Python's object heap is made explicit: `State` holds the list of all
  `Variable` objects and of all graph-linked `Function` (operation) objects;
  object references become indices into those lists.  Nothing is garbage
  collected, so a weak reference (`Function.outputs`) is simply an index
  that never dangles — the "expired weakref" internal-error path of the
  source is unreachable in the embedding.
* Python exceptions become `Except Err`; `Err.outOfFuel` is an
  embedding-only fuel marker for the backward worklist loop, proved
  unreachable below.
* The process-wide `Config` class lives inside `State` (`State.cfg`).
-/

set_option maxRecDepth 8000

namespace Plum

/-- Model of one 0-dimensional numeric array cell. -/
abbrev Data := ℚ

/-- Python exceptions raised by the source, plus the embedding-only
fuel marker `outOfFuel`. -/
inductive Err where
  | typeError
  | valueError
  | attributeError
  | notImplementedError
  | internalError
  | outOfFuel
deriving DecidableEq, Repr

/-- The differentiable operation variants of `core.py` that belong to the
engine's arithmetic surface (`Add`, `Mul`, `Neg`, `Sub`, `Div`, `Pow`).
`Sin`/`Cos`/`Reshape` are out-of-scope numeric kernels (spec §1). -/
inductive Op where
  | add
  | mul
  | neg
  | sub
  | div
  | pow (c : Int)
deriving DecidableEq, Repr

instance : Inhabited Op := ⟨Op.add⟩

/-- `class Variable`: data, name, grad, creator (index of the producing
`Function`), generation. -/
structure Variable where
  data : Option Data
  name : Option String := Option.none
  grad : Option Data := Option.none
  creator : Option Nat := Option.none
  generation : Nat := 0
deriving DecidableEq, Repr

instance : Inhabited Variable := ⟨{ data := Option.none }⟩

/-- `class Function` as recorded in the graph: its op, `self.inputs`
(strongly-held `Variable` indices), `self.outputs` (weakly-held indices)
and `self.generation`.  A `Function` invoked with `enable_backprop` off is
never linked into the graph and therefore never appears in the heap. -/
structure Function where
  op : Op
  inputs : List Nat := []
  outputs : List Nat := []
  generation : Nat := 0
deriving DecidableEq, Repr

instance : Inhabited Function := ⟨{ op := Op.add }⟩

/-- `class Config`: process-wide mode flags. -/
structure Config where
  enable_backprop : Bool := true
  train : Bool := true
deriving DecidableEq, Repr

/-- The whole mutable process state: the object heap plus `Config`. -/
structure State where
  vars : List Variable := []
  funcs : List Function := []
  cfg : Config := {}
deriving DecidableEq, Repr

/-- Dereference a `Variable` index (always valid for indices produced by
the API; `default` stands for the unreachable dangling case). -/
def varD (st : State) (i : Nat) : Variable := st.vars.getD i default

/-- Dereference a `Function` index. -/
def funcD (st : State) (i : Nat) : Function := st.funcs.getD i default

/-- A raw Python value handed to the public API: `None`, a raw Python/NumPy
scalar, a raw 0-dim ndarray, or an existing `Variable` reference. -/
inductive PyVal where
  | pynone
  | scalar (q : Data)
  | array (q : Data)
  | var (id : Nat)
deriving DecidableEq, Repr

/-- `Variable.__init__`: accepts `None` or an ndarray; any other type
(including a raw Python scalar) raises `TypeError`.  Returns the index of
the freshly allocated `Variable`. -/
def mkVariable (st : State) (d : PyVal) : Except Err (Nat × State) :=
  match d with
  | .pynone => .ok (st.vars.length, { st with vars := st.vars ++ [{ data := Option.none }] })
  | .array q => .ok (st.vars.length, { st with vars := st.vars ++ [{ data := some q }] })
  | _ => .error .typeError

/-- `as_array(x)`: promotes a raw scalar to a 0-dim ndarray, leaves
everything else (ndarray, Variable, None) untouched. -/
def as_array (x : PyVal) : PyVal :=
  match x with
  | .scalar q => .array q
  | _ => x

/-- `as_variable(obj)`: an existing Variable passes through, everything
else goes through `Variable.__init__`. -/
def as_variable (st : State) (obj : PyVal) : Except Err (Nat × State) :=
  match obj with
  | .var i => .ok (i, st)
  | _ => mkVariable st obj

/-- `[as_variable(x) for x in inputs]`, left to right. -/
def as_variable_list (st : State) : List PyVal → Except Err (List Nat × State)
  | [] => .ok ([], st)
  | x :: rest =>
    match as_variable st x with
    | .error e => .error e
    | .ok (i, st') =>
      match as_variable_list st' rest with
      | .error e => .error e
      | .ok (is, st'') => .ok (i :: is, st'')

/-- The variants' `forward` on raw data.  A wrong argument count, or
arithmetic on Python `None` data, raises `TypeError`. -/
def Op.forward : Op → List (Option Data) → Except Err Data
  | .add, [some x0, some x1] => .ok (x0 + x1)
  | .mul, [some x0, some x1] => .ok (x0 * x1)
  | .neg, [some x] => .ok (-x)
  | .sub, [some x0, some x1] => .ok (x0 - x1)
  | .div, [some x0, some x1] => .ok (x0 / x1)
  | .pow c, [some x] => .ok (x ^ c)
  | _, _ => .error .typeError

/-- `Variable.set_creator(op)`: records the creator and stamps
`generation = creator.generation + 1`. -/
def set_creator (st : State) (vid : Nat) (fid : Nat) : State :=
  { st with
    vars := st.vars.set vid
      { varD st vid with creator := some fid, generation := (funcD st fid).generation + 1 } }

/-- `Variable.unchain()`: severs the creator link only. -/
def unchain (st : State) (vid : Nat) : State :=
  { st with vars := st.vars.set vid { varD st vid with creator := Option.none } }

/-- Write a `Variable`'s gradient field (`x.grad = g`). -/
def setGrad (st : State) (vid : Nat) (g : Option Data) : State :=
  { st with vars := st.vars.set vid { varD st vid with grad := g } }

/-- `Variable.cleargrad()`. -/
def cleargrad (st : State) (vid : Nat) : State := setGrad st vid Option.none

/-- `max([...])` of the (always nonempty at its call site: `forward`
has already enforced arity ≥ 1) list of input generations; on a nonempty
list `List.foldl Nat.max 0` agrees with Python's `max`. -/
def maxList (l : List Nat) : Nat := l.foldl Nat.max 0

/-- `Function.__call__`: coerce arguments, run `forward`, wrap the result,
and — only when `Config.enable_backprop` — stamp the generation, link
`inputs`/`outputs` and `set_creator`.  (The source's debugging
`print('inputs:', inputs)` has no state effect.)  All concrete variants
produce exactly one output, which is returned. -/
def callFunction (st : State) (op : Op) (args : List PyVal) : Except Err (Nat × State) :=
  match as_variable_list st args with
  | .error e => .error e
  | .ok (inputIds, st1) =>
    match op.forward (inputIds.map (fun i => (varD st1 i).data)) with
    | .error e => .error e
    | .ok y =>
      if st1.cfg.enable_backprop then
        .ok (st1.vars.length, set_creator
          { st1 with
            vars := st1.vars ++ [({ data := some y } : Variable)],
            funcs := st1.funcs ++
              [({ op := op, inputs := inputIds, outputs := [st1.vars.length],
                  generation := maxList (inputIds.map (fun i => (varD st1 i).generation)) }
                : Function)] }
          st1.vars.length st1.funcs.length)
      else
        .ok (st1.vars.length, { st1 with vars := st1.vars ++ [({ data := some y } : Variable)] })

/-- Free function `add(x0, x1)`: `x1 = as_array(x1); return Add()(x0, x1)`. -/
def add (st : State) (x0 x1 : PyVal) : Except Err (Nat × State) :=
  callFunction st .add [x0, as_array x1]

/-- Free function `mul(x0, x1)`. -/
def mul (st : State) (x0 x1 : PyVal) : Except Err (Nat × State) :=
  callFunction st .mul [x0, as_array x1]

/-- Free function `neg(x)`. -/
def neg (st : State) (x : PyVal) : Except Err (Nat × State) :=
  callFunction st .neg [x]

/-- Free function `sub(x0, x1)`. -/
def sub (st : State) (x0 x1 : PyVal) : Except Err (Nat × State) :=
  callFunction st .sub [x0, as_array x1]

/-- Free function `rsub(x0, x1)`: `Sub()(as_array(x1), x0)`. -/
def rsub (st : State) (x0 x1 : PyVal) : Except Err (Nat × State) :=
  callFunction st .sub [as_array x1, x0]

/-- Free function `div(x0, x1)`. -/
def div (st : State) (x0 x1 : PyVal) : Except Err (Nat × State) :=
  callFunction st .div [x0, as_array x1]

/-- Free function `rdiv(x0, x1)`: `Div()(as_array(x1), x0)`. -/
def rdiv (st : State) (x0 x1 : PyVal) : Except Err (Nat × State) :=
  callFunction st .div [as_array x1, x0]

/-- Free function `pow(x, c)`. -/
def pow (st : State) (x : PyVal) (c : Int) : Except Err (Nat × State) :=
  callFunction st (.pow c) [x]

/-! ## The backward engine -/

/-- The local state of `Variable.backward`: the `funcs` worklist and the
`seen_set`.  Both hold what Python holds there: possibly-`None` Function
references. -/
structure BwState where
  funcs : List (Option Nat)
  seen : List (Option Nat)
deriving DecidableEq, Repr

/-- The sort key `lambda x: x.generation`.  On `None` it raises
`AttributeError` ('NoneType' object has no attribute 'generation'). -/
def genKey (st : State) (f : Option Nat) : Except Err Nat :=
  match f with
  | Option.none => .error .attributeError
  | some fid =>
    match st.funcs[fid]? with
    | some fn => .ok fn.generation
    | Option.none => .error .internalError

/-- CPython's `list.sort(key=...)` evaluates the key of every element
(before the length-< 2 early exit), left to right. -/
def keysOf (st : State) : List (Option Nat) → Except Err (List Nat)
  | [] => .ok []
  | f :: rest =>
    match genKey st f with
    | .error e => .error e
    | .ok k =>
      match keysOf st rest with
      | .error e => .error e
      | .ok ks => .ok (k :: ks)

/-- Total version of the sort key, used once `keysOf` has succeeded
(at that point the list is all-`some` and all indices are in range). -/
def keyD (st : State) (f : Option Nat) : Nat :=
  match f with
  | Option.none => 0
  | some fid => (funcD st fid).generation

/-- Stable insertion of `x` into an ascending list: `x` goes after every
element of equal key, as Python's stable sort keeps it. -/
def insSorted (key : Option Nat → Nat) (x : Option Nat) : List (Option Nat) → List (Option Nat)
  | [] => [x]
  | y :: ys => if key y ≤ key x then y :: insSorted key x ys else x :: y :: ys

/-- Stable ascending sort by key (the behaviour of `funcs.sort(key=...)`). -/
def sortByGen (key : Option Nat → Nat) (l : List (Option Nat)) : List (Option Nat) :=
  l.foldl (fun acc x => insSorted key x acc) []

/-- `add_func(f)`: skip if already seen, else append, mark seen and sort
the worklist ascending by generation.  Computing the sort keys raises if
the list contains `None` (or, embedding-only, a dangling index). -/
def add_func (st : State) (s : BwState) (f : Option Nat) : Except Err BwState :=
  if f ∈ s.seen then .ok s
  else
    match keysOf st (s.funcs ++ [f]) with
    | .error e => .error e
    | .ok _ => .ok { funcs := sortByGen (keyD st) (s.funcs ++ [f]), seen := f :: s.seen }

/-- The variants' `backward` (gradient rule): one incoming gradient per
output, one outgoing gradient per input, reading stashed forward state
from `self.inputs`.  Arithmetic on a `None` gradient or `None` data raises
`TypeError`; unpacking `self.inputs` of the wrong length raises
`ValueError` (`x0, x1 = self.inputs`) resp. `IndexError`-like failure for
`self.inputs[0]`. -/
def backwardRule (st : State) (f : Function) (gys : List (Option Data)) :
    Except Err (List (Option Data)) :=
  match f.op, gys with
  | .add, [gy] => .ok [gy, gy]
  | .mul, [gy] =>
    match f.inputs with
    | [i0, i1] =>
      match gy, (varD st i0).data, (varD st i1).data with
      | some g, some x0, some x1 => .ok [some (g * x1), some (g * x0)]
      | _, _, _ => .error .typeError
    | _ => .error .valueError
  | .neg, [gy] =>
    match gy with
    | some g => .ok [some (-g)]
    | Option.none => .error .typeError
  | .sub, [gy] =>
    match gy with
    | some g => .ok [some g, some (-g)]
    | Option.none => .error .typeError
  | .div, [gy] =>
    match f.inputs with
    | [i0, i1] =>
      match gy, (varD st i0).data, (varD st i1).data with
      | some g, some x0, some x1 => .ok [some (g / x1), some (g * (-x0) / (x1 ^ (2 : Nat)))]
      | _, _, _ => .error .typeError
    | _ => .error .valueError
  | .pow c, [gy] =>
    match f.inputs with
    | i0 :: _ =>
      match gy, (varD st i0).data with
      | some g, some x => .ok [some ((c : Data) * x ^ (c - 1) * g)]
      | _, _ => .error .typeError
    | [] => .error .valueError
  | _, _ => .error .typeError

/-- `if x.creator is not None: add_func(x.creator)`. -/
def pushCreator (st : State) (s : BwState) (x : Nat) : Except Err (State × BwState) :=
  match (varD st x).creator with
  | some c =>
    match add_func st s (some c) with
    | .error e => .error e
    | .ok s' => .ok (st, s')
  | Option.none => .ok (st, s)

/-- One turn of `for x, gx in zip(f.inputs, gxs)`: set-or-sum the
gradient, then push the creator.  Summing an existing gradient with a
`None` incoming gradient raises `TypeError` (ndarray + None). -/
def accumStep (st : State) (s : BwState) (x : Nat) (gx : Option Data) :
    Except Err (State × BwState) :=
  match (varD st x).grad, gx with
  | Option.none, _ => pushCreator (setGrad st x gx) s x
  | some g, some gxv => pushCreator (setGrad st x (some (g + gxv))) s x
  | some _, Option.none => .error .typeError

/-- The whole `for x, gx in zip(f.inputs, gxs)` loop. -/
def accumList (st : State) (s : BwState) : List (Nat × Option Data) → Except Err (State × BwState)
  | [] => .ok (st, s)
  | (x, gx) :: rest =>
    match accumStep st s x gx with
    | .error e => .error e
    | .ok (st', s') => accumList st' s' rest

/-- `for output in f.outputs: output().grad = None`. -/
def clearOutputGrads (st : State) : List Nat → State
  | [] => st
  | o :: rest => clearOutputGrads (setGrad st o Option.none) rest

/-- One iteration body of the backward loop after `f = funcs.pop()`:
collect `gys`, run the gradient rule, accumulate into inputs (pushing
creators), and clear the outputs' gradients unless `retain_grad`. -/
def processFunc (st : State) (retain_grad : Bool) (s : BwState) (fid : Nat) :
    Except Err (State × BwState) :=
  match st.funcs[fid]? with
  | Option.none => .error .internalError
  | some f =>
    match backwardRule st f (f.outputs.map (fun oid => (varD st oid).grad)) with
    | .error e => .error e
    | .ok gxs =>
      match accumList st s (f.inputs.zip gxs) with
      | .error e => .error e
      | .ok (st', s') =>
        .ok ((if retain_grad then st' else clearOutputGrads st' f.outputs), s')

/-- `while funcs:` — pop the highest-generation entry (the tail of the
ascending list) and process it.  Fuel only bounds the iteration count; it
is proved below (`bwLoop` never returns `outOfFuel` at the fuel `backward`
supplies) that the loop terminates.  The returned trace lists the
processed Function indices in order. -/
def bwLoop (retain_grad : Bool) : Nat → State → BwState → Except Err (State × List Nat)
  | 0, _, _ => .error .outOfFuel
  | fuel + 1, st, s =>
    match s.funcs.getLast? with
    | Option.none => .ok (st, [])
    | some fopt =>
      let s' : BwState := { s with funcs := s.funcs.dropLast }
      match fopt with
      | Option.none => .error .attributeError
      | some fid =>
        match processFunc st retain_grad s' fid with
        | .error e => .error e
        | .ok (st', s'') =>
          match bwLoop retain_grad fuel st' s'' with
          | .error e => .error e
          | .ok (st'', tr) => .ok (st'', fid :: tr)

/-- `if self.grad is None: self.grad = np.ones_like(self.data)` (for a
0-dim array: the scalar `1`). -/
def seedGrad (st : State) (vid : Nat) : State :=
  match (varD st vid).grad with
  | Option.none => setGrad st vid (some 1)
  | some _ => st

/-- `Variable.backward(retain_grad=False)`: seed the gradient, seed the
worklist with `add_func(self.creator)` (note: no `None` guard here — the
guard exists only inside the loop), then run the worklist loop. -/
def backward (st : State) (vid : Nat) (retain_grad : Bool) :
    Except Err (State × List Nat) :=
  match add_func (seedGrad st vid) { funcs := [], seen := [] }
      (varD (seedGrad st vid) vid).creator with
  | .error e => .error e
  | .ok s => bwLoop retain_grad ((seedGrad st vid).funcs.length + 1) (seedGrad st vid) s

/-! ## Mode controller -/

/-- The named `Config` flags. -/
inductive FlagName where
  | enable_backprop
  | train
deriving DecidableEq, Repr

/-- `getattr(Config, name)`. -/
def getFlag (c : Config) : FlagName → Bool
  | .enable_backprop => c.enable_backprop
  | .train => c.train

/-- `setattr(Config, name, value)`. -/
def setFlag (c : Config) : FlagName → Bool → Config
  | .enable_backprop, b => { c with enable_backprop := b }
  | .train, b => { c with train := b }

/-- `using_config(name, value)` as a context manager: save, set, run the
body (which may itself mutate state and may finish with an error), and
restore the saved flag value in a `finally` — on both exit paths. -/
def using_config (name : FlagName) (value : Bool)
    (body : State → State × Except ε α) (st : State) : State × Except ε α :=
  let old_value := getFlag st.cfg name
  let st1 : State := { st with cfg := setFlag st.cfg name value }
  let res := body st1
  ({ res.1 with cfg := setFlag res.1.cfg name old_value }, res.2)

/-- `no_grad()`. -/
def no_grad (body : State → State × Except ε α) (st : State) : State × Except ε α :=
  using_config .enable_backprop false body st

/-- `test_mode()`. -/
def test_mode (body : State → State × Except ε α) (st : State) : State × Except ε α :=
  using_config .train false body st

/-! ## Frame lemmas: everything the backward engine does is a gradient write -/

/-- Forget the gradient field, keeping data, name, creator and generation. -/
def eraseGrad (v : Variable) : Variable := { v with grad := Option.none }

/-- Two states with the same operation nodes, the same mode flags, and
variable-by-variable identical non-gradient fields. -/
def SameGraph (st st' : State) : Prop :=
  st'.funcs = st.funcs ∧ st'.cfg = st.cfg ∧ st'.vars.map eraseGrad = st.vars.map eraseGrad

/-! ## Concrete programs used by the claims -/

/-- The empty initial process state (no objects allocated, default flags). -/
def st0 : State := {}

/-- C1's diamond: `x = Variable(np.array(3)); y = add(x, x); y.backward()`;
returns `x.grad`. -/
def c1Diamond : Except Err (Option Data) :=
  match mkVariable st0 (.array 3) with
  | .error e => .error e
  | .ok (x, st) =>
    match add st (.var x) (.var x) with
    | .error e => .error e
    | .ok (y, st2) =>
      match backward st2 y false with
      | .error e => .error e
      | .ok (st3, _) => .ok (varD st3 x).grad

/-- C2's chain: `x = Variable(np.array(2)); y = mul(mul(x, x), x);
y.backward()`; returns `x.grad`. -/
def c2Chain : Except Err (Option Data) :=
  match mkVariable st0 (.array 2) with
  | .error e => .error e
  | .ok (x, st) =>
    match mul st (.var x) (.var x) with
    | .error e => .error e
    | .ok (t, st2) =>
      match mul st2 (.var t) (.var x) with
      | .error e => .error e
      | .ok (y, st3) =>
        match backward st3 y false with
        | .error e => .error e
        | .ok (st4, _) => .ok (varD st4 x).grad

/-- C4's failing input: a single creator-less `Variable(np.array(3.0))`. -/
def c4State : State := { vars := [{ data := some 3 }] }

/-- C10's concrete graph: the linked diamond `y = add(x, x)` written as an
explicit heap. -/
def c10State : State :=
  { vars := [{ data := some 3 },
             { data := some 6, creator := some 0, generation := 1 }],
    funcs := [{ op := .add, inputs := [0, 0], outputs := [1], generation := 0 }] }

/-- C10's heap after `backward` on the diamond: only gradients changed
(`x.grad` is the accumulated `1 + 1 = 2`, written unevaluated so that the
run is checked by `rfl`). -/
def c10After : State :=
  { vars := [{ data := some 3, grad := some (1 + 1) },
             { data := some 6, creator := some 0, generation := 1 }],
    funcs := [{ op := .add, inputs := [0, 0], outputs := [1], generation := 0 }] }

/-- C7's concrete state: `x = Variable(np.array(5))` with backprop off. -/
def c7State : State :=
  { vars := [{ data := some 5 }], cfg := { enable_backprop := false } }

/-- The heap C7's `add(x, x)` leaves behind under `no_grad`. -/
def c7After : State :=
  { vars := [{ data := some 5 }, { data := some (5 + 5) }],
    cfg := { enable_backprop := false } }

/-! ## C9: scalar coercion at the public interface (corrected) -/

/-- C9's concrete state: `x = Variable(np.array(5))`. -/
def c9State : State := { vars := [{ data := some 5 }] }

/-! ## Worklist lemmas: permutation, sortedness, measure -/

/-- Ascending-by-key sortedness of a worklist. -/
def SortedBy (key : Option Nat → Nat) (l : List (Option Nat)) : Prop :=
  List.Pairwise (fun a b => key a ≤ key b) l

/-- Count of graph-linked operation indices not yet in the seen-set. -/
def unseenCount (st : State) (s : BwState) : Nat :=
  ((Finset.range st.funcs.length).filter (fun j => (some j) ∉ s.seen)).card

/-- The loop measure: unseen operations plus worklist length.  It stays
fixed across `add_func` and drops by exactly one per pop. -/
def bwMeasure (st : State) (s : BwState) : Nat := unseenCount st s + s.funcs.length

/-- C3's concrete graph: the linked diamond `y = add(x, x)`. -/
def c3State : State :=
  { vars := [{ data := some 3 },
             { data := some 6, creator := some 0, generation := 1 }],
    funcs := [{ op := .add, inputs := [0, 0], outputs := [1], generation := 0 }] }

/-- C3's heap after `backward` on the diamond (`x.grad` is the
accumulated `1 + 1`, written unevaluated so the run is checked by `rfl`). -/
def c3After : State :=
  { vars := [{ data := some 3, grad := some (1 + 1) },
             { data := some 6, creator := some 0, generation := 1 }],
    funcs := [{ op := .add, inputs := [0, 0], outputs := [1], generation := 0 }] }

/-! ## Generation facts needed by the clearing policy -/

/-- The generation discipline the graph builder maintains: inputs'
generations bound the operation's, outputs sit one above it, and a
creator link pins a variable one generation above its creator.  (This
set survives `unchain`, which changes no generation.) -/
def GenOKP (st : State) : Prop :=
  (∀ f ∈ st.funcs, ∀ i ∈ f.inputs, (varD st i).generation ≤ f.generation) ∧
  (∀ f ∈ st.funcs, ∀ o ∈ f.outputs, (varD st o).generation = f.generation + 1) ∧
  (∀ i c : Nat, (varD st i).creator = some c →
    (varD st i).generation = (funcD st c).generation + 1)

/-- Executable check for `GenOKP`, usable with `decide` on closed states. -/
def genOKb (st : State) : Bool :=
  (st.funcs.all fun f => f.inputs.all fun i =>
    decide ((varD st i).generation ≤ f.generation)) &&
  (st.funcs.all fun f => f.outputs.all fun o =>
    decide ((varD st o).generation = f.generation + 1)) &&
  (st.vars.all fun v =>
    match v.creator with
    | some c => decide (v.generation = (funcD st c).generation + 1)
    | Option.none => true)

/-- C5's chain with `retain_grad = False`: `x = Variable(np.array(2))`,
`t = mul(x, x)`, `y = mul(t, x)`, `y.backward()`; returns
`(x.grad, t.grad, y.grad)`. -/
def c5Chain : Except Err (Option Data × Option Data × Option Data) :=
  match mkVariable st0 (.array 2) with
  | .error e => .error e
  | .ok (x, st) =>
    match mul st (.var x) (.var x) with
    | .error e => .error e
    | .ok (t, st2) =>
      match mul st2 (.var t) (.var x) with
      | .error e => .error e
      | .ok (y, st3) =>
        match backward st3 y false with
        | .error e => .error e
        | .ok (st4, _) => .ok ((varD st4 x).grad, (varD st4 t).grad, (varD st4 y).grad)

/-- The same chain with `retain_grad = True`. -/
def c5ChainRetain : Except Err (Option Data × Option Data × Option Data) :=
  match mkVariable st0 (.array 2) with
  | .error e => .error e
  | .ok (x, st) =>
    match mul st (.var x) (.var x) with
    | .error e => .error e
    | .ok (t, st2) =>
      match mul st2 (.var t) (.var x) with
      | .error e => .error e
      | .ok (y, st3) =>
        match backward st3 y true with
        | .error e => .error e
        | .ok (st4, _) => .ok ((varD st4 x).grad, (varD st4 t).grad, (varD st4 y).grad)

/-- C5's seed node: `x = Variable(np.array(3)); y = add(x, x);
y.backward()`; returns `y.grad` — the gradient of the node `backward`
was called on. -/
def c5Diamond : Except Err (Option Data) :=
  match mkVariable st0 (.array 3) with
  | .error e => .error e
  | .ok (x, st) =>
    match add st (.var x) (.var x) with
    | .error e => .error e
    | .ok (y, st2) =>
      match backward st2 y false with
      | .error e => .error e
      | .ok (st3, _) => .ok (varD st3 y).grad

/-- C5's witness graph: the linked diamond `y = add(x, x)` over `x = 4`. -/
def c5WState : State :=
  { vars := [{ data := some 4 },
             { data := some 8, creator := some 0, generation := 1 }],
    funcs := [{ op := .add, inputs := [0, 0], outputs := [1], generation := 0 }] }

/-- C5's witness graph after the pass (`x.grad` is the accumulated
`1 + 1`, unevaluated so the run is checked by `rfl`). -/
def c5WAfter : State :=
  { vars := [{ data := some 4, grad := some (1 + 1) },
             { data := some 8, creator := some 0, generation := 1 }],
    funcs := [{ op := .add, inputs := [0, 0], outputs := [1], generation := 0 }] }

/-- The part of the generation invariant that also survives `unchain`:
every linked operation's generation is the max of its inputs' current
generations, every recorded output sits one generation above its
operation, and a creator link pins a variable one above its creator. -/
def GenInvU (st : State) : Prop :=
  (∀ f ∈ st.funcs, f.generation = maxList (f.inputs.map fun i => (varD st i).generation)) ∧
  (∀ f ∈ st.funcs, ∀ o ∈ f.outputs, (varD st o).generation = f.generation + 1) ∧
  (∀ i c : Nat, (varD st i).creator = some c →
    (varD st i).generation = (funcD st c).generation + 1)

/-- The full generation invariant of the claim: `GenInvU` plus
"a Value Node with no creator has generation 0". -/
def GenInv (st : State) : Prop :=
  GenInvU st ∧ ∀ i : Nat, (varD st i).creator = Option.none → (varD st i).generation = 0

/-- Index bounds of the graph: linked operations point at existing
variables, creator links point at linked operations. -/
def WFB (st : State) : Prop :=
  (∀ f ∈ st.funcs, (∀ i ∈ f.inputs, i < st.vars.length) ∧
    (∀ o ∈ f.outputs, o < st.vars.length)) ∧
  (∀ i c : Nat, (varD st i).creator = some c → c < st.funcs.length)

/-- Executable check of `GenInv`. -/
def genInvb (st : State) : Bool :=
  (st.funcs.all fun f =>
    decide (f.generation = maxList (f.inputs.map fun i => (varD st i).generation))) &&
  (st.funcs.all fun f => f.outputs.all fun o =>
    decide ((varD st o).generation = f.generation + 1)) &&
  (st.vars.all fun v =>
    match v.creator with
    | some c => decide (v.generation = (funcD st c).generation + 1)
    | Option.none => decide (v.generation = 0))

/-- Executable check of `WFB`. -/
def wfb (st : State) : Bool :=
  (st.funcs.all fun f => (f.inputs.all fun i => decide (i < st.vars.length)) &&
    (f.outputs.all fun o => decide (o < st.vars.length))) &&
  (st.vars.all fun v =>
    match v.creator with
    | some c => decide (c < st.funcs.length)
    | Option.none => true)

/-- Raw arguments hold only in-range Variable references. -/
def argsValid (st : State) (args : List PyVal) : Bool :=
  args.all fun a =>
    match a with
    | .var i => decide (i < st.vars.length)
    | _ => true

/-- The state `Function.__call__` builds when it links a new single-output
operation into the graph. -/
def linkState (st1 : State) (op : Op) (ids : List Nat) (y : Data) : State :=
  set_creator
    { st1 with
      vars := st1.vars ++ [({ data := some y } : Variable)],
      funcs := st1.funcs ++
        [({ op := op, inputs := ids, outputs := [st1.vars.length],
            generation := maxList (ids.map (fun i => (varD st1 i).generation)) }
          : Function)] }
    st1.vars.length st1.funcs.length

/-- C6's concrete run: `x = Variable(np.array(3)); y = add(x, x);
y.unchain()`; returns `(y.creator, y.generation)`. -/
def c6Unchain : Except Err (Option Nat × Nat) :=
  match mkVariable st0 (.array 3) with
  | .error e => .error e
  | .ok (x, st) =>
    match add st (.var x) (.var x) with
    | .error e => .error e
    | .ok (y, st2) => .ok ((varD (unchain st2 y) y).creator, (varD (unchain st2 y) y).generation)

/-- The heap after C6's witness allocation. -/
def c6WitSt : State := { vars := [{ data := some 7 }] }

/-! ## Theorems -/

theorem SameGraph.rfl (st : State) : SameGraph st st := ⟨Eq.refl _, Eq.refl _, Eq.refl _⟩

theorem SameGraph.trans {a b c : State} (h1 : SameGraph a b) (h2 : SameGraph b c) :
    SameGraph a c :=
  ⟨h2.1.trans h1.1, h2.2.1.trans h1.2.1, h2.2.2.trans h1.2.2⟩

theorem SameGraph.varsLength {st st' : State} (h : SameGraph st st') :
    st'.vars.length = st.vars.length := by
  have := congrArg List.length h.2.2
  simpa using this

theorem SameGraph.varD_eraseGrad {st st' : State} (h : SameGraph st st') (i : Nat) :
    eraseGrad (varD st' i) = eraseGrad (varD st i) := by
  have h2 := congrArg (fun l => l[i]?) h.2.2
  simp only [List.getElem?_map] at h2
  unfold varD
  rw [List.getD_eq_getElem?_getD, List.getD_eq_getElem?_getD]
  cases hv : st'.vars[i]? with
  | none =>
    cases hv2 : st.vars[i]? with
    | none => rfl
    | some w => rw [hv, hv2] at h2; simp at h2
  | some v =>
    cases hv2 : st.vars[i]? with
    | none => rw [hv, hv2] at h2; simp at h2
    | some w =>
      rw [hv, hv2] at h2
      simp only [Option.map_some'] at h2
      simpa using h2

theorem SameGraph.varD_data {st st' : State} (h : SameGraph st st') (i : Nat) :
    (varD st' i).data = (varD st i).data :=
  calc (varD st' i).data = (eraseGrad (varD st' i)).data := Eq.refl _
    _ = (eraseGrad (varD st i)).data := by rw [h.varD_eraseGrad i]
    _ = (varD st i).data := Eq.refl _

theorem SameGraph.varD_name {st st' : State} (h : SameGraph st st') (i : Nat) :
    (varD st' i).name = (varD st i).name :=
  calc (varD st' i).name = (eraseGrad (varD st' i)).name := Eq.refl _
    _ = (eraseGrad (varD st i)).name := by rw [h.varD_eraseGrad i]
    _ = (varD st i).name := Eq.refl _

theorem SameGraph.varD_creator {st st' : State} (h : SameGraph st st') (i : Nat) :
    (varD st' i).creator = (varD st i).creator :=
  calc (varD st' i).creator = (eraseGrad (varD st' i)).creator := Eq.refl _
    _ = (eraseGrad (varD st i)).creator := by rw [h.varD_eraseGrad i]
    _ = (varD st i).creator := Eq.refl _

theorem SameGraph.varD_generation {st st' : State} (h : SameGraph st st') (i : Nat) :
    (varD st' i).generation = (varD st i).generation :=
  calc (varD st' i).generation = (eraseGrad (varD st' i)).generation := Eq.refl _
    _ = (eraseGrad (varD st i)).generation := by rw [h.varD_eraseGrad i]
    _ = (varD st i).generation := Eq.refl _

theorem SameGraph.funcD_eq {st st' : State} (h : SameGraph st st') : funcD st' = funcD st := by
  funext i
  unfold funcD
  rw [h.1]

theorem SameGraph.keyD_eq {st st' : State} (h : SameGraph st st') : keyD st' = keyD st := by
  funext f
  unfold keyD
  cases f with
  | none => rfl
  | some fid => rw [h.funcD_eq]

/-- Writing a gradient never changes graph structure, data or flags. -/
theorem setGrad_sameGraph (st : State) (i : Nat) (g : Option Data) :
    SameGraph st (setGrad st i g) := by
  refine ⟨Eq.refl _, Eq.refl _, ?_⟩
  show (st.vars.set i { varD st i with grad := g }).map eraseGrad = st.vars.map eraseGrad
  apply List.ext_getElem?
  intro n
  rw [List.map_set, List.getElem?_set]
  split
  · next hin =>
    subst hin
    split
    · next hlt =>
      have hlen : i < st.vars.length := by simpa using hlt
      rw [List.getElem?_map, List.getElem?_eq_getElem hlen]
      have hvd : varD st i = st.vars[i] := List.getD_eq_getElem _ _ hlen
      simp [eraseGrad, hvd]
    · next hge =>
      have hlen : st.vars.length ≤ i := by
        simpa using Nat.le_of_not_lt hge
      rw [List.getElem?_map]
      rw [List.getElem?_eq_none hlen]
      rfl
  · next hne => rfl

theorem varD_setGrad_self {st : State} {i : Nat} (g : Option Data)
    (h : i < st.vars.length) :
    varD (setGrad st i g) i = { varD st i with grad := g } := by
  unfold varD setGrad
  rw [List.getD_eq_getElem?_getD]
  simp only [List.getElem?_set_self (by simpa using h)]
  rfl

theorem varD_setGrad_ne {st : State} {i j : Nat} (g : Option Data) (h : i ≠ j) :
    varD (setGrad st i g) j = varD st j := by
  unfold varD setGrad
  rw [List.getD_eq_getElem?_getD, List.getD_eq_getElem?_getD]
  rw [List.getElem?_set_ne h]

theorem seedGrad_sameGraph (st : State) (vid : Nat) : SameGraph st (seedGrad st vid) := by
  unfold seedGrad
  split
  · exact setGrad_sameGraph st vid (some 1)
  · exact SameGraph.rfl st

theorem clearOutputGrads_sameGraph : ∀ (l : List Nat) (st : State),
    SameGraph st (clearOutputGrads st l)
  | [], st => SameGraph.rfl st
  | o :: rest, st =>
    (setGrad_sameGraph st o Option.none).trans
      (clearOutputGrads_sameGraph rest (setGrad st o Option.none))

theorem pushCreator_ok_state {st : State} {s : BwState} {x : Nat} {p : State × BwState}
    (h : pushCreator st s x = .ok p) : p.1 = st := by
  unfold pushCreator at h
  split at h
  · split at h
    · exact absurd h (by simp)
    · cases h; rfl
  · cases h; rfl

theorem accumStep_sameGraph {st : State} {s : BwState} {x : Nat} {gx : Option Data}
    {p : State × BwState} (h : accumStep st s x gx = .ok p) : SameGraph st p.1 := by
  unfold accumStep at h
  split at h
  · rw [pushCreator_ok_state h]; exact setGrad_sameGraph ..
  · rw [pushCreator_ok_state h]; exact setGrad_sameGraph ..
  · exact absurd h (by simp)

theorem accumList_sameGraph : ∀ (pairs : List (Nat × Option Data)) (st : State) (s : BwState)
    {p : State × BwState}, accumList st s pairs = .ok p → SameGraph st p.1
  | [], st, s, p, h => by cases h; exact SameGraph.rfl st
  | (x, gx) :: rest, st, s, p, h => by
    unfold accumList at h
    split at h
    · exact absurd h (by simp)
    · next st' s' heq =>
      exact (accumStep_sameGraph heq).trans (accumList_sameGraph rest st' s' h)

theorem processFunc_sameGraph {st : State} {r : Bool} {s : BwState} {fid : Nat}
    {p : State × BwState} (h : processFunc st r s fid = .ok p) : SameGraph st p.1 := by
  unfold processFunc at h
  split at h
  · exact absurd h (by simp)
  · split at h
    · exact absurd h (by simp)
    · split at h
      · exact absurd h (by simp)
      · next st' s' heq =>
        cases h
        have h1 := accumList_sameGraph _ _ _ heq
        by_cases hr : r
        · simpa [hr] using h1
        · simp only [hr, if_false]
          exact h1.trans (clearOutputGrads_sameGraph _ _)

theorem bwLoop_sameGraph {r : Bool} : ∀ (fuel : Nat) (st : State) (s : BwState)
    {p : State × List Nat}, bwLoop r fuel st s = .ok p → SameGraph st p.1
  | 0, st, s, p, h => absurd h (by simp [bwLoop])
  | fuel + 1, st, s, p, h => by
    unfold bwLoop at h
    split at h
    · cases h; exact SameGraph.rfl st
    · next fopt _ =>
      cases fopt with
      | none => exact absurd h (by simp)
      | some fid =>
        simp only at h
        split at h
        · exact absurd h (by simp)
        · next st' s'' heq =>
          split at h
          · exact absurd h (by simp)
          · next st'' tr heq2 =>
            cases h
            have h2 : SameGraph st' st'' := bwLoop_sameGraph fuel st' s'' heq2
            have h3 : SameGraph st st' := processFunc_sameGraph heq
            exact h3.trans h2

theorem backward_sameGraph {st : State} {vid : Nat} {r : Bool} {p : State × List Nat}
    (h : backward st vid r = .ok p) : SameGraph st p.1 := by
  unfold backward at h
  split at h
  · exact absurd h (by simp)
  · exact (seedGrad_sameGraph st vid).trans (bwLoop_sameGraph _ _ _ h)

/-! ## C1: gradient accumulation sums rather than overwrites -/

theorem accumStep_grad_none {st : State} {s : BwState} {x : Nat} {gx : Option Data}
    {p : State × BwState} (h : accumStep st s x gx = .ok p)
    (hg : (varD st x).grad = Option.none) : p.1 = setGrad st x gx := by
  unfold accumStep at h
  rw [hg] at h
  exact pushCreator_ok_state h

theorem accumStep_grad_some {st : State} {s : BwState} {x : Nat} {g gxv : Data}
    {p : State × BwState} (h : accumStep st s x (some gxv) = .ok p)
    (hg : (varD st x).grad = some g) : p.1 = setGrad st x (some (g + gxv)) := by
  unfold accumStep at h
  rw [hg] at h
  exact pushCreator_ok_state h

/-- **C1.** During a backward pass, each `(input, input_gradient)` pair is
accumulated by set-if-null, elementwise-sum otherwise; and on the diamond
graph `x = Value(3)`, `y = add(x, x)`, after `y.backward()` the gradient
of `x` is `2` (and not `1`). -/
theorem gradient_accumulation_sums :
    (∀ (st : State) (s : BwState) (x : Nat) (gx : Option Data) (p : State × BwState),
      accumStep st s x gx = .ok p → x < st.vars.length →
      ((varD st x).grad = Option.none → (varD p.1 x).grad = gx) ∧
      (∀ g gxv, (varD st x).grad = some g → gx = some gxv →
        (varD p.1 x).grad = some (g + gxv))) ∧
    c1Diamond = .ok (some 2) ∧ some (2 : Data) ≠ some (1 : Data) := by
  refine ⟨?_, ?_, by decide⟩
  case refine_2 =>
    rw [show c1Diamond = .ok (some (1 + 1)) from Eq.refl _]
    norm_num
  intro st s x gx p h hx
  constructor
  · intro hg
    rw [accumStep_grad_none h hg, varD_setGrad_self gx hx]
  · intro g gxv hg hgx
    subst hgx
    rw [accumStep_grad_some h hg, varD_setGrad_self (some (g + gxv)) hx]

/-- Closed witness for the hypotheses of `gradient_accumulation_sums`:
the accumulation cases evaluated on an explicit one-variable state. -/
theorem gradient_accumulation_sums_witness :
    (varD (setGrad c4State 0 (some 5)) 0).grad = some 5 ∧
    (varD (setGrad (setGrad c4State 0 (some 5)) 0 (some (5 + 7))) 0).grad = some (5 + 7) := by
  have h := gradient_accumulation_sums.1 c4State { funcs := [], seen := [] } 0 (some 5)
    (setGrad c4State 0 (some 5), { funcs := [], seen := [] }) (by rfl) (by decide)
  have h1 : (varD (setGrad c4State 0 (some 5)) 0).grad = some 5 := h.1 (by rfl)
  have h2 := gradient_accumulation_sums.1 (setGrad c4State 0 (some 5))
    { funcs := [], seen := [] } 0 (some 7)
    (setGrad (setGrad c4State 0 (some 5)) 0 (some (5 + 7)), { funcs := [], seen := [] })
    (by rfl) (by decide)
  exact ⟨h1, h2.2 5 7 (by rfl) (Eq.refl _)⟩

/-! ## C2: chain rule through composed multiplications -/

/-- **C2.** For `x = Value(2)`, `y = mul(mul(x, x), x)`, `y.backward()`
leaves `x.grad = 3 * 2^2 = 12`; the backward pass seeds a null gradient
of the starting node with ones. -/
theorem chain_rule_correct :
    (∀ (st : State) (vid : Nat), vid < st.vars.length →
      (varD st vid).grad = Option.none →
      (varD (seedGrad st vid) vid).grad = some 1) ∧
    c2Chain = .ok (some 12) ∧ (12 : Data) = 3 * 2 ^ (2 : Nat) := by
  refine ⟨?_, ?_, by norm_num⟩
  case refine_2 =>
    rw [show c2Chain = .ok (some (1 * (2 * 2) + 1 * 2 * 2 + 1 * 2 * 2)) from Eq.refl _]
    norm_num
  intro st vid hlt hg
  unfold seedGrad
  rw [hg, varD_setGrad_self (some 1) hlt]

/-- Closed witness for `chain_rule_correct`: the seeding case at
an explicit state. -/
theorem chain_rule_correct_witness :
    (varD (seedGrad c4State 0) 0).grad = some 1 :=
  chain_rule_correct.1 c4State 0 (by decide) (by rfl)

/-! ## C4: backward on a creator-less node (spec says no-op; code raises) -/

/-- **C4.** Spec and claim say `v.backward()` on a creator-less node is a
no-op, but the code seeds the worklist with `add_func(self.creator)`
without the `None` guard that the inner loop has; `funcs.sort(key=lambda
x: x.generation)` then evaluates `None.generation` and raises
`AttributeError`.  This theorem proves the code raises on every such
node — the claim describes the intent, the code is the slip. -/
theorem backward_no_creator_raises (st : State) (vid : Nat) (r : Bool)
    (h : (varD st vid).creator = Option.none) :
    backward st vid r = .error .attributeError := by
  unfold backward
  have hc : (varD (seedGrad st vid) vid).creator = Option.none := by
    rw [(seedGrad_sameGraph st vid).varD_creator vid]
    exact h
  rw [hc]
  rfl

/-- Closed witness: `Variable(np.array(3.0)).backward()` raises
`AttributeError`. -/
theorem backward_no_creator_raises_witness :
    backward c4State 0 false = .error .attributeError :=
  backward_no_creator_raises c4State 0 false (by decide)

/-! ## C10: a backward pass writes only gradient fields -/

/-- **C10.** A completed backward pass changes no operation node, no mode
flag, and no variable's data, name, creator or generation — only `grad`
fields. -/
theorem backward_frame (st : State) (vid : Nat) (r : Bool) (st' : State) (tr : List Nat)
    (h : backward st vid r = .ok (st', tr)) :
    st'.funcs = st.funcs ∧ st'.cfg = st.cfg ∧ st'.vars.length = st.vars.length ∧
    ∀ i : Nat, (varD st' i).data = (varD st i).data ∧
      (varD st' i).name = (varD st i).name ∧
      (varD st' i).creator = (varD st i).creator ∧
      (varD st' i).generation = (varD st i).generation := by
  have hs : SameGraph st st' := backward_sameGraph h
  exact ⟨hs.1, hs.2.1, hs.varsLength,
    fun i => ⟨hs.varD_data i, hs.varD_name i, hs.varD_creator i, hs.varD_generation i⟩⟩

/-- Closed witness for `backward_frame` at the concrete diamond heap. -/
theorem backward_frame_witness :
    c10After.funcs = c10State.funcs ∧ c10After.cfg = c10State.cfg ∧
    c10After.vars.length = c10State.vars.length ∧
    (varD c10After 1).creator = (varD c10State 1).creator := by
  have h := backward_frame c10State 1 false c10After [0] (by rfl)
  exact ⟨h.1, h.2.1, h.2.2.1, (h.2.2.2 1).2.2.1⟩

/-! ## C7: no-grad suppresses graph growth -/

theorem as_variable_cfg (st : State) (c : Config) (obj : PyVal) :
    as_variable { st with cfg := c } obj =
      (as_variable st obj).map (fun p => (p.1, { p.2 with cfg := c })) := by
  cases obj <;> rfl

theorem as_variable_list_cfg : ∀ (args : List PyVal) (st : State) (c : Config),
    as_variable_list { st with cfg := c } args =
      (as_variable_list st args).map (fun p => (p.1, { p.2 with cfg := c }))
  | [], _, _ => Eq.refl _
  | x :: rest, st, c => by
    simp only [as_variable_list, as_variable_cfg st c x]
    cases h : as_variable st x with
    | error e => rfl
    | ok p =>
      simp only [Except.map]
      rw [as_variable_list_cfg rest p.2 c]
      cases h2 : as_variable_list p.2 rest with
      | error e => rfl
      | ok q => rfl

theorem as_variable_preserves {st : State} {obj : PyVal} {p : Nat × State}
    (h : as_variable st obj = .ok p) : p.2.cfg = st.cfg ∧ p.2.funcs = st.funcs := by
  cases obj with
  | pynone => cases h; exact ⟨Eq.refl _, Eq.refl _⟩
  | scalar q => exact Except.noConfusion h
  | array q => cases h; exact ⟨Eq.refl _, Eq.refl _⟩
  | var i => cases h; exact ⟨Eq.refl _, Eq.refl _⟩

theorem as_variable_list_preserves : ∀ {args : List PyVal} {st : State} {p : List Nat × State},
    as_variable_list st args = .ok p → p.2.cfg = st.cfg ∧ p.2.funcs = st.funcs
  | [], st, p, h => by cases h; exact ⟨Eq.refl _, Eq.refl _⟩
  | x :: rest, st, p, h => by
    unfold as_variable_list at h
    split at h
    · exact Except.noConfusion h
    · next i st1 heq =>
      split at h
      · exact Except.noConfusion h
      · next is st2 heq2 =>
        cases h
        have h1 := as_variable_preserves heq
        have h2 := as_variable_list_preserves heq2
        exact ⟨h2.1.trans h1.1, h2.2.trans h1.2⟩

theorem getD_append_length {α : Type} (l : List α) (v d : α) :
    (l ++ [v]).getD l.length d = v := by
  rw [List.getD_eq_getElem?_getD, List.getElem?_append_right (Nat.le_refl _)]
  simp

theorem varD_set_creator_self {st : State} {vid fid : Nat} (h : vid < st.vars.length) :
    varD (set_creator st vid fid) vid =
      { varD st vid with creator := some fid, generation := (funcD st fid).generation + 1 } := by
  unfold varD set_creator
  rw [List.getD_eq_getElem?_getD]
  simp only [List.getElem?_set_self (by simpa using h)]
  rfl

theorem callFunction_backprop_off {st : State} {op : Op} {args : List PyVal}
    {out : Nat} {st' : State}
    (hoff : st.cfg.enable_backprop = false)
    (h : callFunction st op args = .ok (out, st')) :
    ∃ inputIds st1 y, as_variable_list st args = .ok (inputIds, st1) ∧
      op.forward (inputIds.map fun i => (varD st1 i).data) = .ok y ∧
      out = st1.vars.length ∧
      st' = { st1 with vars := st1.vars ++ [{ data := some y }] } := by
  unfold callFunction at h
  split at h
  · exact Except.noConfusion h
  · next inputIds st1 heq =>
    split at h
    · exact Except.noConfusion h
    · next y hy =>
      have hpres := as_variable_list_preserves heq
      rw [if_neg (by rw [show st1.cfg = st.cfg from hpres.1, hoff]; exact Bool.false_ne_true)] at h
      cases h
      exact ⟨inputIds, st1, y, heq, hy, Eq.refl _, Eq.refl _⟩

theorem callFunction_out_data {st : State} {op : Op} {args : List PyVal}
    {out : Nat} {st' : State} (h : callFunction st op args = .ok (out, st')) :
    ∃ inputIds st1 y, as_variable_list st args = .ok (inputIds, st1) ∧
      op.forward (inputIds.map fun i => (varD st1 i).data) = .ok y ∧
      out = st1.vars.length ∧ (varD st' out).data = some y := by
  unfold callFunction at h
  split at h
  · exact Except.noConfusion h
  · next inputIds st1 heq =>
    split at h
    · exact Except.noConfusion h
    · next y hy =>
      refine ⟨inputIds, st1, y, heq, hy, ?_⟩
      split at h
      · cases h
        refine ⟨Eq.refl _, ?_⟩
        rw [varD_set_creator_self (by simp)]
        show (varD { st1 with
            vars := st1.vars ++ [({ data := some y } : Variable)],
            funcs := _ } st1.vars.length).data = some y
        unfold varD
        rw [getD_append_length]
      · cases h
        refine ⟨Eq.refl _, ?_⟩
        show (varD { st1 with vars := st1.vars ++ [({ data := some y } : Variable)] }
          st1.vars.length).data = some y
        unfold varD
        rw [getD_append_length]

/-- **C7.** With `enable_backprop` off, any (single-output) operation call
returns a Value Node with no creator and generation 0, links no Operation
Node into the graph, leaves the flags untouched, and produces exactly the
numeric data that the same call with the flag on would produce. -/
theorem no_grad_suppresses_graph
    (st : State) (op : Op) (args : List PyVal) (out : Nat) (st' : State)
    (hoff : st.cfg.enable_backprop = false)
    (h : callFunction st op args = .ok (out, st')) :
    (varD st' out).creator = Option.none ∧ (varD st' out).generation = 0 ∧
    st'.funcs = st.funcs ∧ st'.cfg = st.cfg ∧
    ∀ out2 st2,
      callFunction { st with cfg := { st.cfg with enable_backprop := true } } op args =
        .ok (out2, st2) →
      (varD st2 out2).data = (varD st' out).data := by
  obtain ⟨ids, st1, y, heq, hy, hout, hst'⟩ := callFunction_backprop_off hoff h
  have hpres := as_variable_list_preserves heq
  subst hout
  subst hst'
  have hvd : varD { st1 with vars := st1.vars ++ [({ data := some y } : Variable)] }
      st1.vars.length = { data := some y } := by
    unfold varD
    exact getD_append_length st1.vars _ _
  refine ⟨by rw [hvd], by rw [hvd], hpres.2, hpres.1, ?_⟩
  intro out2 st2 h2
  obtain ⟨ids2, st12, y2, heq2, hy2, hout2, hdata2⟩ := callFunction_out_data h2
  rw [as_variable_list_cfg args st { st.cfg with enable_backprop := true }, heq] at heq2
  simp only [Except.map, Except.ok.injEq, Prod.mk.injEq] at heq2
  obtain ⟨hids, hst12⟩ := heq2
  subst hids
  subst hst12
  have hmap : (ids.map fun i =>
      (varD { st1 with cfg := { st.cfg with enable_backprop := true } } i).data)
      = ids.map fun i => (varD st1 i).data := Eq.refl _
  rw [hmap, hy] at hy2
  cases hy2
  rw [hdata2, hvd]

/-- Closed witness for `no_grad_suppresses_graph` at `z = add(x, x)`
inside a no-grad scope. -/
theorem no_grad_suppresses_graph_witness :
    (varD c7After 1).creator = Option.none ∧ (varD c7After 1).generation = 0 ∧
    c7After.funcs = c7State.funcs := by
  have h := no_grad_suppresses_graph c7State .add [.var 0, .var 0] 1 c7After
    (Eq.refl _) (Eq.refl _)
  exact ⟨h.1, h.2.1, h.2.2.1⟩

/-! ## C8: scoped override restoration -/

theorem getFlag_setFlag_self (c : Config) (n : FlagName) (v : Bool) :
    getFlag (setFlag c n v) n = v := by
  cases n <;> rfl

theorem setFlag_setFlag_getFlag (c : Config) (n : FlagName) (v : Bool) :
    setFlag (setFlag c n v) n (getFlag c n) = c := by
  cases n <;> rfl

/-- **C8.** `using_config` (a) hands the body a state whose named flag
reads the requested value, (b) restores the named flag to its entry value
on scope exit whatever the body did and whether the body finished with
`.ok` or `.error`, (c) restores the whole flag set when the body itself is
flag-preserving — which is exactly the shape of properly nested scopes —
and (d) does not alter which flags other than the named one read. -/
theorem using_config_restores :
    (∀ (c : Config) (n : FlagName) (v : Bool), getFlag (setFlag c n v) n = v) ∧
    (∀ (ε α : Type) (name : FlagName) (value : Bool)
       (body : State → State × Except ε α) (st : State),
      getFlag (using_config name value body st).1.cfg name = getFlag st.cfg name) ∧
    (∀ (ε α : Type) (name : FlagName) (value : Bool)
       (body : State → State × Except ε α) (st : State),
      (∀ s, (body s).1.cfg = s.cfg) →
      (using_config name value body st).1.cfg = st.cfg) ∧
    (∀ (c : Config) (n n2 : FlagName) (v : Bool), n2 ≠ n →
      getFlag (setFlag c n v) n2 = getFlag c n2) := by
  refine ⟨getFlag_setFlag_self, ?_, ?_, ?_⟩
  · intro ε α name value body st
    exact getFlag_setFlag_self _ name _
  · intro ε α name value body st hbody
    show setFlag (body _).1.cfg name (getFlag st.cfg name) = st.cfg
    rw [hbody]
    exact setFlag_setFlag_getFlag st.cfg name value
  · intro c n n2 v hne
    cases n <;> cases n2 <;> first | exact absurd (Eq.refl _) hne | rfl

/-- Closed witness for `using_config_restores`: `test_mode()`-style scopes
(`train := false`), one finishing normally and one raising, both restore
the `train` flag; a flag-preserving body restores the whole `Config`. -/
theorem using_config_restores_witness :
    getFlag (using_config .train false (fun s => (s, (.ok 0 : Except Unit Nat))) st0).1.cfg .train
      = getFlag st0.cfg .train ∧
    getFlag (using_config .train false (fun s => (s, (.error () : Except Unit Nat))) st0).1.cfg .train
      = getFlag st0.cfg .train ∧
    (using_config .train false (fun s => (s, (.ok 0 : Except Unit Nat))) st0).1.cfg = st0.cfg :=
  ⟨using_config_restores.2.1 Unit Nat .train false (fun s => (s, .ok 0)) st0,
   using_config_restores.2.1 Unit Nat .train false (fun s => (s, .error ())) st0,
   using_config_restores.2.2.1 Unit Nat .train false (fun s => (s, .ok 0)) st0 (fun _ => Eq.refl _)⟩

/-- **C9 counterexample.** The claim promises that a raw scalar in any
argument position is coerced and the call succeeds; but `add(3, x)` — raw
Python scalar first — raises `TypeError`: only the `x1` parameter passes
through `as_array`, and `as_variable` hands the raw scalar to
`Variable.__init__`, which rejects non-ndarray data. -/
theorem scalar_first_arg_raises :
    add c9State (.scalar 3) (.var 0) = .error .typeError := Eq.refl _

/-- **C9 amended.** Raw ndarray arguments in any position, and a raw
scalar in the `x1` parameter of the binary free functions (the one routed
through `as_array`), are coerced into root Value Nodes before the
operation runs; a raw scalar in any position not routed through
`as_array` (the `x0` parameter of `add`/`mul`/`sub`/`div`/`rsub`/`rdiv`
and the sole argument of `neg`/`pow`) raises `TypeError`. -/
theorem scalar_coercion_amended :
    (∀ (st : State) (x0 : PyVal) (q : Data),
      add st x0 (.scalar q) = add st x0 (.array q) ∧
      mul st x0 (.scalar q) = mul st x0 (.array q) ∧
      sub st x0 (.scalar q) = sub st x0 (.array q) ∧
      rsub st x0 (.scalar q) = rsub st x0 (.array q) ∧
      div st x0 (.scalar q) = div st x0 (.array q) ∧
      rdiv st x0 (.scalar q) = rdiv st x0 (.array q)) ∧
    (∀ (st : State) (q : Data),
      as_variable st (.array q) =
        .ok (st.vars.length, { st with vars := st.vars ++ [{ data := some q }] })) ∧
    (∀ (st : State) (q : Data) (x1 : PyVal),
      add st (.scalar q) x1 = .error .typeError ∧
      mul st (.scalar q) x1 = .error .typeError ∧
      sub st (.scalar q) x1 = .error .typeError ∧
      div st (.scalar q) x1 = .error .typeError ∧
      rsub st (.scalar q) x1 = .error .typeError ∧
      rdiv st (.scalar q) x1 = .error .typeError) ∧
    (∀ (st : State) (q : Data) (c : Int),
      neg st (.scalar q) = .error .typeError ∧
      pow st (.scalar q) c = .error .typeError) := by
  refine ⟨?_, ?_, ?_, ?_⟩
  · intro st x0 q
    exact ⟨Eq.refl _, Eq.refl _, Eq.refl _, Eq.refl _, Eq.refl _, Eq.refl _⟩
  · intro st q
    rfl
  · intro st q x1
    cases x1 <;> exact ⟨Eq.refl _, Eq.refl _, Eq.refl _, Eq.refl _, Eq.refl _, Eq.refl _⟩
  · intro st q c
    exact ⟨Eq.refl _, Eq.refl _⟩

theorem insSorted_perm (key : Option Nat → Nat) (x : Option Nat) :
    ∀ l : List (Option Nat), (insSorted key x l).Perm (x :: l)
  | [] => List.Perm.refl _
  | y :: ys => by
    unfold insSorted
    split
    · exact ((insSorted_perm key x ys).cons y).trans (List.Perm.swap x y ys)
    · exact List.Perm.refl _

theorem sortByGen_aux_perm (key : Option Nat → Nat) :
    ∀ (l acc : List (Option Nat)),
      (List.foldl (fun a x => insSorted key x a) acc l).Perm (acc ++ l)
  | [], acc => by simp
  | x :: rest, acc => by
    simp only [List.foldl_cons]
    refine (sortByGen_aux_perm key rest (insSorted key x acc)).trans ?_
    refine (List.Perm.append_right rest (insSorted_perm key x acc)).trans ?_
    exact List.perm_middle.symm

theorem sortByGen_perm (key : Option Nat → Nat) (l : List (Option Nat)) :
    (sortByGen key l).Perm l := by
  have h := sortByGen_aux_perm key l []
  simpa [sortByGen] using h

theorem insSorted_sorted (key : Option Nat → Nat) (x : Option Nat) :
    ∀ {l : List (Option Nat)}, SortedBy key l → SortedBy key (insSorted key x l)
  | [], _ => List.Pairwise.cons (by simp) List.Pairwise.nil
  | y :: ys, h => by
    obtain ⟨hy, hys⟩ := List.pairwise_cons.mp h
    unfold insSorted
    split
    · next hle =>
      refine List.Pairwise.cons ?_ (insSorted_sorted key x hys)
      intro z hz
      rcases List.mem_cons.mp ((insSorted_perm key x ys).mem_iff.mp hz) with rfl | hz2
      · exact hle
      · exact hy z hz2
    · next hgt =>
      refine List.Pairwise.cons ?_ h
      intro z hz
      have hxy : key x ≤ key y := Nat.le_of_lt (Nat.lt_of_not_le hgt)
      rcases List.mem_cons.mp hz with rfl | hz2
      · exact hxy
      · exact Nat.le_trans hxy (hy z hz2)

theorem sortByGen_sorted (key : Option Nat → Nat) (l : List (Option Nat)) :
    SortedBy key (sortByGen key l) := by
  suffices h : ∀ (l2 acc : List (Option Nat)), SortedBy key acc →
      SortedBy key (List.foldl (fun a x => insSorted key x a) acc l2) from
    h l [] List.Pairwise.nil
  intro l2
  induction l2 with
  | nil => intro acc h; simpa using h
  | cons x rest ih =>
    intro acc h
    simp only [List.foldl_cons]
    exact ih _ (insSorted_sorted key x h)

theorem eq_dropLast_concat {α : Type} {l : List α} {y : α} (h : l.getLast? = some y) :
    l = l.dropLast ++ [y] := by
  cases l with
  | nil => exact Option.noConfusion h
  | cons a as =>
    have hne : (a :: as) ≠ [] := by simp
    rw [List.getLast?_eq_getLast _ hne] at h
    injection h with h2
    rw [h2.symm]
    exact (List.dropLast_append_getLast hne).symm

theorem sorted_pop_max {key : Option Nat → Nat} {l : List (Option Nat)} {y : Option Nat}
    (hs : SortedBy key l) (hy : l.getLast? = some y) :
    ∀ x ∈ l.dropLast, key x ≤ key y := by
  intro x hx
  have hdecomp := eq_dropLast_concat hy
  rw [hdecomp] at hs
  exact (List.pairwise_append.mp hs).2.2 x hx y (by simp)

theorem nodup_last_not_in_dropLast {α : Type} {l : List α} {y : α}
    (hnd : l.Nodup) (hy : l.getLast? = some y) : y ∉ l.dropLast := by
  have hdecomp := eq_dropLast_concat hy
  rw [hdecomp] at hnd
  have hdis := (List.nodup_append.mp hnd).2.2
  intro hmem
  exact hdis hmem (by simp)

theorem getLast?_mem {α : Type} {l : List α} {y : α} (hy : l.getLast? = some y) : y ∈ l := by
  rw [eq_dropLast_concat hy]
  simp

theorem genKey_ok_valid {st : State} {x : Option Nat} {k : Nat} (h : genKey st x = .ok k) :
    ∃ j, x = some j ∧ j < st.funcs.length := by
  cases x with
  | none => simp [genKey] at h
  | some j =>
    simp only [genKey] at h
    cases hj : st.funcs[j]? with
    | none => rw [hj] at h; exact Except.noConfusion h
    | some fn =>
      obtain ⟨hlt, _⟩ := List.getElem?_eq_some.mp hj
      exact ⟨j, Eq.refl _, hlt⟩

theorem keysOf_ok_valid : ∀ {l : List (Option Nat)} {st : State} {ks : List Nat},
    keysOf st l = .ok ks → ∀ x ∈ l, ∃ j, x = some j ∧ j < st.funcs.length
  | [], _, _, _ => by intro x hx; exact absurd hx (List.not_mem_nil x)
  | f :: rest, st, ks, h => by
    unfold keysOf at h
    split at h
    · exact Except.noConfusion h
    · next k hk =>
      split at h
      · exact Except.noConfusion h
      · next ks2 hks =>
        intro x hx
        rcases List.mem_cons.mp hx with rfl | hx2
        · exact genKey_ok_valid hk
        · exact keysOf_ok_valid hks x hx2

theorem add_func_cases {st : State} {s : BwState} {f : Option Nat} {s' : BwState}
    (h : add_func st s f = .ok s') :
    (f ∈ s.seen ∧ s' = s) ∨
    (f ∉ s.seen ∧ s'.seen = f :: s.seen ∧
      s'.funcs = sortByGen (keyD st) (s.funcs ++ [f]) ∧
      (∀ x ∈ s.funcs ++ [f], ∃ j, x = some j ∧ j < st.funcs.length)) := by
  unfold add_func at h
  split at h
  · next hf => cases h; exact Or.inl ⟨hf, Eq.refl _⟩
  · next hf =>
    split at h
    · exact Except.noConfusion h
    · next ks hks =>
      cases h
      exact Or.inr ⟨hf, Eq.refl _, Eq.refl _, keysOf_ok_valid hks⟩

theorem add_func_seen_mono {st : State} {s : BwState} {f : Option Nat} {s' : BwState}
    (h : add_func st s f = .ok s') : ∀ x ∈ s.seen, x ∈ s'.seen := by
  rcases add_func_cases h with ⟨_, rfl⟩ | ⟨_, hseen, _, _⟩
  · intro x hx; exact hx
  · intro x hx; rw [hseen]; exact List.mem_cons_of_mem f hx

theorem add_func_funcs_mem {st : State} {s : BwState} {f : Option Nat} {s' : BwState}
    (h : add_func st s f = .ok s') :
    ∀ x ∈ s'.funcs, x ∈ s.funcs ∨ (x = f ∧ f ∉ s.seen) := by
  rcases add_func_cases h with ⟨_, rfl⟩ | ⟨hf, _, hfuncs, _⟩
  · intro x hx; exact Or.inl hx
  · intro x hx
    rw [hfuncs] at hx
    have := (sortByGen_perm (keyD st) (s.funcs ++ [f])).mem_iff.mp hx
    rcases List.mem_append.mp this with hxf | hxf
    · exact Or.inl hxf
    · exact Or.inr ⟨List.mem_singleton.mp hxf, hf⟩

theorem add_func_closed {st : State} {s : BwState} {f : Option Nat} {s' : BwState}
    (h : add_func st s f = .ok s')
    (hcl : ∀ x ∈ s.funcs, x ∈ s.seen) : ∀ x ∈ s'.funcs, x ∈ s'.seen := by
  intro x hx
  rcases add_func_funcs_mem h x hx with hxf | ⟨rfl, _⟩
  · exact add_func_seen_mono h x (hcl x hxf)
  · rcases add_func_cases h with ⟨_, rfl⟩ | ⟨_, hseen, _, _⟩
    · exact hcl x hx
    · rw [hseen]; exact List.mem_cons_self x _

theorem add_func_nodup {st : State} {s : BwState} {f : Option Nat} {s' : BwState}
    (h : add_func st s f = .ok s')
    (hnd : s.funcs.Nodup) (hcl : ∀ x ∈ s.funcs, x ∈ s.seen) : s'.funcs.Nodup := by
  rcases add_func_cases h with ⟨_, rfl⟩ | ⟨hf, _, hfuncs, _⟩
  · exact hnd
  · rw [hfuncs]
    refine ((sortByGen_perm (keyD st) (s.funcs ++ [f])).symm).nodup ?_
    rw [List.nodup_append]
    refine ⟨hnd, List.nodup_singleton f, ?_⟩
    intro x hx hxf
    rw [List.mem_singleton.mp hxf] at hx
    exact hf (hcl f hx)

theorem add_func_sorted {st : State} {s : BwState} {f : Option Nat} {s' : BwState}
    (h : add_func st s f = .ok s')
    (hs : SortedBy (keyD st) s.funcs) : SortedBy (keyD st) s'.funcs := by
  rcases add_func_cases h with ⟨_, rfl⟩ | ⟨_, _, hfuncs, _⟩
  · exact hs
  · rw [hfuncs]; exact sortByGen_sorted (keyD st) (s.funcs ++ [f])

theorem add_func_measure {st : State} {s : BwState} {f : Option Nat} {s' : BwState}
    (h : add_func st s f = .ok s') : bwMeasure st s' = bwMeasure st s := by
  rcases add_func_cases h with ⟨_, rfl⟩ | ⟨hf, hseen, hfuncs, hvalid⟩
  · rfl
  · obtain ⟨j, rfl, hj⟩ := hvalid f (by simp)
    have hlen : s'.funcs.length = s.funcs.length + 1 := by
      rw [hfuncs, (sortByGen_perm (keyD st) (s.funcs ++ [some j])).length_eq]
      simp
    have hmem : j ∈ (Finset.range st.funcs.length).filter (fun j2 => (some j2) ∉ s.seen) := by
      simp only [Finset.mem_filter, Finset.mem_range]
      exact ⟨hj, hf⟩
    have hcount : unseenCount st s' + 1 = unseenCount st s := by
      unfold unseenCount
      simp only [hseen]
      have hset : (Finset.range st.funcs.length).filter
            (fun j2 => (some j2) ∉ some j :: s.seen)
          = ((Finset.range st.funcs.length).filter (fun j2 => (some j2) ∉ s.seen)).erase j := by
        ext a
        simp only [Finset.mem_filter, Finset.mem_erase, Finset.mem_range, List.mem_cons,
          not_or, Option.some.injEq]
        constructor
        · rintro ⟨ha, hne, hns⟩
          exact ⟨hne, ha, hns⟩
        · rintro ⟨hne, ha, hns⟩
          exact ⟨ha, hne, hns⟩
      rw [hset, Finset.card_erase_of_mem hmem]
      have hpos : 0 < ((Finset.range st.funcs.length).filter
          (fun j2 => (some j2) ∉ s.seen)).card :=
        Finset.card_pos.mpr ⟨j, hmem⟩
      omega
    unfold bwMeasure
    omega

/-! ## Error kinds: only the fuel-0 branch of `bwLoop` yields `outOfFuel` -/

theorem genKey_err {st : State} {x : Option Nat} {e : Err}
    (h : genKey st x = .error e) : e ≠ .outOfFuel := by
  cases x with
  | none =>
    simp only [genKey] at h
    injection h with h2
    exact h2 ▸ (by decide)
  | some j =>
    simp only [genKey] at h
    cases hj : st.funcs[j]? with
    | none =>
      rw [hj] at h
      injection h with h2
      exact h2 ▸ (by decide)
    | some fn => rw [hj] at h; exact Except.noConfusion h

theorem keysOf_err : ∀ {l : List (Option Nat)} {st : State} {e : Err},
    keysOf st l = .error e → e ≠ .outOfFuel
  | [], _, _, h => Except.noConfusion h
  | f :: rest, st, e, h => by
    unfold keysOf at h
    split at h
    · next e2 heq =>
      injection h with h2
      exact h2 ▸ genKey_err heq
    · split at h
      · next e2 heq =>
        injection h with h2
        exact h2 ▸ keysOf_err heq
      · exact Except.noConfusion h

theorem add_func_err {st : State} {s : BwState} {f : Option Nat} {e : Err}
    (h : add_func st s f = .error e) : e ≠ .outOfFuel := by
  unfold add_func at h
  split at h
  · exact Except.noConfusion h
  · split at h
    · next e2 heq =>
      injection h with h2
      exact h2 ▸ keysOf_err heq
    · exact Except.noConfusion h

theorem backwardRule_err {st : State} {f : Function} {gys : List (Option Data)} {e : Err}
    (h : backwardRule st f gys = .error e) : e ≠ .outOfFuel := by
  unfold backwardRule at h
  repeat' split at h
  all_goals
    first
    | exact Except.noConfusion h
    | (injection h with h2; exact h2 ▸ (by decide))

theorem pushCreator_err {st : State} {s : BwState} {x : Nat} {e : Err}
    (h : pushCreator st s x = .error e) : e ≠ .outOfFuel := by
  unfold pushCreator at h
  split at h
  · split at h
    · next e2 heq =>
      injection h with h2
      exact h2 ▸ add_func_err heq
    · exact Except.noConfusion h
  · exact Except.noConfusion h

theorem accumStep_err {st : State} {s : BwState} {x : Nat} {gx : Option Data} {e : Err}
    (h : accumStep st s x gx = .error e) : e ≠ .outOfFuel := by
  unfold accumStep at h
  split at h
  · exact pushCreator_err h
  · exact pushCreator_err h
  · injection h with h2
    exact h2 ▸ (by decide)

theorem accumList_err : ∀ {pairs : List (Nat × Option Data)} {st : State} {s : BwState} {e : Err},
    accumList st s pairs = .error e → e ≠ .outOfFuel
  | [], _, _, _, h => Except.noConfusion h
  | (x, gx) :: rest, st, s, e, h => by
    unfold accumList at h
    split at h
    · next e2 heq =>
      injection h with h2
      exact h2 ▸ accumStep_err heq
    · next st2 s2 heq => exact accumList_err h

theorem processFunc_err {st : State} {r : Bool} {s : BwState} {fid : Nat} {e : Err}
    (h : processFunc st r s fid = .error e) : e ≠ .outOfFuel := by
  unfold processFunc at h
  split at h
  · injection h with h2
    exact h2 ▸ (by decide)
  · split at h
    · next e2 heq =>
      injection h with h2
      exact h2 ▸ backwardRule_err heq
    · split at h
      · next e2 heq =>
        injection h with h2
        exact h2 ▸ accumList_err heq
      · exact Except.noConfusion h

/-! ## Step lemmas for the worklist state across one processed node -/

theorem pushCreator_spec {st : State} {s : BwState} {x : Nat} {st' : State} {s' : BwState}
    (h : pushCreator st s x = .ok (st', s')) :
    st' = st ∧ (s' = s ∨ ∃ c, (varD st x).creator = some c ∧ add_func st s (some c) = .ok s') := by
  unfold pushCreator at h
  split at h
  · next c hc =>
    split at h
    · exact Except.noConfusion h
    · next s2 heq =>
      cases h
      exact ⟨Eq.refl _, Or.inr ⟨c, hc, heq⟩⟩
  · cases h
    exact ⟨Eq.refl _, Or.inl (Eq.refl _)⟩

theorem bwMeasure_funcs_congr {st st' : State} (h : st'.funcs.length = st.funcs.length)
    (s : BwState) : bwMeasure st' s = bwMeasure st s := by
  unfold bwMeasure unseenCount
  rw [h]

theorem accumStep_spec {st : State} {s : BwState} {x : Nat} {gx : Option Data}
    {st' : State} {s' : BwState} (h : accumStep st s x gx = .ok (st', s')) :
    SameGraph st st' ∧
    bwMeasure st' s' = bwMeasure st s ∧
    (∀ z ∈ s.seen, z ∈ s'.seen) ∧
    (∀ z ∈ s'.funcs, z ∈ s.funcs ∨
      (z ∉ s.seen ∧ ∃ c, (varD st x).creator = some c ∧ z = some c)) ∧
    ((∀ z ∈ s.funcs, z ∈ s.seen) → ∀ z ∈ s'.funcs, z ∈ s'.seen) ∧
    (s.funcs.Nodup → (∀ z ∈ s.funcs, z ∈ s.seen) → s'.funcs.Nodup) ∧
    (SortedBy (keyD st) s.funcs → SortedBy (keyD st) s'.funcs) := by
  have hsg : SameGraph st st' := accumStep_sameGraph h
  refine ⟨hsg, ?_⟩
  have hflen : st'.funcs.length = st.funcs.length := by rw [hsg.1]
  have key : ∀ (g : Option Data), pushCreator (setGrad st x g) s x = .ok (st', s') →
      bwMeasure st' s' = bwMeasure st s ∧
      (∀ z ∈ s.seen, z ∈ s'.seen) ∧
      (∀ z ∈ s'.funcs, z ∈ s.funcs ∨
        (z ∉ s.seen ∧ ∃ c, (varD st x).creator = some c ∧ z = some c)) ∧
      ((∀ z ∈ s.funcs, z ∈ s.seen) → ∀ z ∈ s'.funcs, z ∈ s'.seen) ∧
      (s.funcs.Nodup → (∀ z ∈ s.funcs, z ∈ s.seen) → s'.funcs.Nodup) ∧
      (SortedBy (keyD st) s.funcs → SortedBy (keyD st) s'.funcs) := by
    intro g hp
    have hsgm : SameGraph st (setGrad st x g) := setGrad_sameGraph st x g
    have hkey : keyD (setGrad st x g) = keyD st := hsgm.keyD_eq
    obtain ⟨hst, hcase⟩ := pushCreator_spec hp
    rcases hcase with hss | ⟨c, hc, hadd⟩
    · subst hss
      exact ⟨bwMeasure_funcs_congr hflen _, fun z hz => hz, fun z hz => Or.inl hz,
        fun hcl z hz => hcl z hz, fun hnd _ => hnd, fun hs => hs⟩
    · have hc2 : (varD st x).creator = some c := by
        rw [hsgm.varD_creator x] at hc
        exact hc
      refine ⟨?_, add_func_seen_mono hadd, ?_, add_func_closed hadd,
        add_func_nodup hadd, ?_⟩
      · calc bwMeasure st' s' = bwMeasure (setGrad st x g) s' := by rw [hst]
          _ = bwMeasure (setGrad st x g) s := add_func_measure hadd
          _ = bwMeasure st s := bwMeasure_funcs_congr (by rw [hsgm.1]) s
      · intro z hz
        rcases add_func_funcs_mem hadd z hz with hzf | ⟨rfl, hns⟩
        · exact Or.inl hzf
        · exact Or.inr ⟨hns, c, hc2, Eq.refl _⟩
      · intro hs
        have h2 := add_func_sorted hadd (by rw [hkey]; exact hs)
        rw [hkey] at h2
        exact h2
  unfold accumStep at h
  split at h
  · exact key _ h
  · exact key _ h
  · exact Except.noConfusion h

theorem accumList_spec : ∀ {pairs : List (Nat × Option Data)} {st : State} {s : BwState}
    {st' : State} {s' : BwState}, accumList st s pairs = .ok (st', s') →
    SameGraph st st' ∧
    bwMeasure st' s' = bwMeasure st s ∧
    (∀ z ∈ s.seen, z ∈ s'.seen) ∧
    (∀ z ∈ s'.funcs, z ∈ s.funcs ∨
      (z ∉ s.seen ∧ ∃ i c, i ∈ pairs.map Prod.fst ∧ (varD st i).creator = some c ∧ z = some c)) ∧
    ((∀ z ∈ s.funcs, z ∈ s.seen) → ∀ z ∈ s'.funcs, z ∈ s'.seen) ∧
    (s.funcs.Nodup → (∀ z ∈ s.funcs, z ∈ s.seen) → s'.funcs.Nodup) ∧
    (SortedBy (keyD st) s.funcs → SortedBy (keyD st) s'.funcs)
  | [], st, s, st', s', h => by
    cases h
    exact ⟨SameGraph.rfl st, Eq.refl _, fun z hz => hz, fun z hz => Or.inl hz,
      fun hcl z hz => hcl z hz, fun hnd _ => hnd, fun hs => hs⟩
  | (x, gx) :: rest, st, s, st', s', h => by
    unfold accumList at h
    split at h
    · exact Except.noConfusion h
    · next st1 s1 heq =>
      obtain ⟨hsg1, hm1, hmono1, hmem1, hcl1, hnd1, hsort1⟩ := accumStep_spec heq
      obtain ⟨hsg2, hm2, hmono2, hmem2, hcl2, hnd2, hsort2⟩ := accumList_spec h
      have hkey1 : keyD st1 = keyD st := hsg1.keyD_eq
      refine ⟨hsg1.trans hsg2, ?_, ?_, ?_, ?_, ?_, ?_⟩
      · rw [hm2, hm1]
      · intro z hz
        exact hmono2 z (hmono1 z hz)
      · intro z hz
        rcases hmem2 z hz with hz1 | ⟨hns1, i, c, hi, hcrea, rfl⟩
        · rcases hmem1 z hz1 with hzs | ⟨hns, c, hcrea, rfl⟩
          · exact Or.inl hzs
          · exact Or.inr ⟨hns, x, c, by simp, hcrea, Eq.refl _⟩
        · refine Or.inr ⟨fun hin => hns1 (hmono1 _ hin), i, c, ?_, ?_, Eq.refl _⟩
          · simp only [List.map_cons, List.mem_cons]
            exact Or.inr hi
          · rw [hsg1.varD_creator i] at hcrea
            exact hcrea
      · intro hcl z hz
        exact hcl2 (hcl1 hcl) z hz
      · intro hnd hcl
        exact hnd2 (hnd1 hnd hcl) (hcl1 hcl)
      · intro hs
        have h1 := hsort1 hs
        have h2 := hsort2 (by rw [hkey1]; exact h1)
        rw [hkey1] at h2
        exact h2

theorem clearOutputGrads_funcs : ∀ (l : List Nat) (st : State),
    (clearOutputGrads st l).funcs = st.funcs
  | [], _ => Eq.refl _
  | o :: rest, st => clearOutputGrads_funcs rest (setGrad st o Option.none)

theorem processFunc_spec {st : State} {r : Bool} {s : BwState} {fid : Nat}
    {st' : State} {s' : BwState} (h : processFunc st r s fid = .ok (st', s')) :
    SameGraph st st' ∧
    bwMeasure st' s' = bwMeasure st s ∧
    (∀ z ∈ s.seen, z ∈ s'.seen) ∧
    (∃ f, st.funcs[fid]? = some f ∧
      ∀ z ∈ s'.funcs, z ∈ s.funcs ∨
        (z ∉ s.seen ∧ ∃ i c, i ∈ f.inputs ∧ (varD st i).creator = some c ∧ z = some c)) ∧
    ((∀ z ∈ s.funcs, z ∈ s.seen) → ∀ z ∈ s'.funcs, z ∈ s'.seen) ∧
    (s.funcs.Nodup → (∀ z ∈ s.funcs, z ∈ s.seen) → s'.funcs.Nodup) ∧
    (SortedBy (keyD st) s.funcs → SortedBy (keyD st) s'.funcs) := by
  have hsg : SameGraph st st' := processFunc_sameGraph h
  refine ⟨hsg, ?_⟩
  have hflen : st'.funcs.length = st.funcs.length := by rw [hsg.1]
  unfold processFunc at h
  split at h
  · exact Except.noConfusion h
  · next f hf =>
    split at h
    · exact Except.noConfusion h
    · next gxs hgxs =>
      split at h
      · exact Except.noConfusion h
      · next st1 s1 heq =>
        cases h
        obtain ⟨hsg1, hm1, hmono1, hmem1, hcl1, hnd1, hsort1⟩ := accumList_spec heq
        refine ⟨?_, hmono1, ⟨f, hf, ?_⟩, hcl1, hnd1, hsort1⟩
        · exact (bwMeasure_funcs_congr (by rw [hflen, hsg1.1]) _).trans hm1
        · intro z hz
          rcases hmem1 z hz with hzs | ⟨hns, i, c, hi, hcrea, rfl⟩
          · exact Or.inl hzs
          · refine Or.inr ⟨hns, i, c, ?_, hcrea, Eq.refl _⟩
            obtain ⟨y, hy, hfst⟩ := List.mem_map.mp hi
            have hz2 := List.of_mem_zip hy
            rw [hfst.symm]
            exact hz2.1

/-! ## Termination and single-processing of the backward loop -/

theorem bwLoop_not_outOfFuel {r : Bool} : ∀ (fuel : Nat) (st : State) (s : BwState),
    bwMeasure st s < fuel → bwLoop r fuel st s ≠ .error .outOfFuel
  | 0, _, _, hm => absurd hm (Nat.not_lt_zero _)
  | fuel + 1, st, s, hm => by
    intro hcon
    unfold bwLoop at hcon
    split at hcon
    · exact Except.noConfusion hcon
    · next fopt hlast =>
      cases fopt with
      | none =>
        injection hcon with h2
        exact absurd h2 (by decide)
      | some fid =>
        simp only at hcon
        split at hcon
        · next e heq =>
          injection hcon with h2
          exact processFunc_err heq h2
        · next st1 s1 heq =>
          split at hcon
          · next e heq2 =>
            injection hcon with h2
            have hne : s.funcs ≠ [] := by
              intro hnil
              rw [hnil] at hlast
              exact Option.noConfusion hlast
            have hpos : 0 < s.funcs.length := List.length_pos.mpr hne
            have hlen : s.funcs.dropLast.length = s.funcs.length - 1 := by
              simp [List.length_dropLast]
            have hmdrop : bwMeasure st { s with funcs := s.funcs.dropLast } + 1
                = bwMeasure st s := by
              show unseenCount st { s with funcs := s.funcs.dropLast }
                  + s.funcs.dropLast.length + 1 = unseenCount st s + s.funcs.length
              have hu : unseenCount st { s with funcs := s.funcs.dropLast }
                  = unseenCount st s := Eq.refl _
              rw [hu, hlen]
              omega
            have hm1 := (processFunc_spec heq).2.1
            have hm2 : bwMeasure st1 s1 < fuel := by
              rw [hm1]
              omega
            rw [h2] at heq2
            exact bwLoop_not_outOfFuel fuel st1 s1 hm2 heq2
          · exact Except.noConfusion hcon

theorem bwLoop_trace {r : Bool} : ∀ (fuel : Nat) (st : State) (s : BwState) (st' : State)
    (tr : List Nat), bwLoop r fuel st s = .ok (st', tr) →
    s.funcs.Nodup → (∀ z ∈ s.funcs, z ∈ s.seen) →
    tr.Nodup ∧ (∀ t ∈ tr, some t ∈ s.funcs ∨ some t ∉ s.seen)
  | 0, _, _, _, _, h, _, _ => Except.noConfusion h
  | fuel + 1, st, s, st', tr, h, hnd, hcl => by
    unfold bwLoop at h
    split at h
    · cases h
      exact ⟨List.nodup_nil, fun t ht => absurd ht (List.not_mem_nil t)⟩
    · next fopt hlast =>
      cases fopt with
      | none => exact Except.noConfusion h
      | some fid =>
        simp only at h
        split at h
        · exact Except.noConfusion h
        · next st1 s1 heq =>
          split at h
          · exact Except.noConfusion h
          · next st2 tr2 heq2 =>
            cases h
            have hfid_mem : some fid ∈ s.funcs := getLast?_mem hlast
            have hfid_seen : some fid ∈ s.seen := hcl _ hfid_mem
            have hfid_not_drop : some fid ∉ s.funcs.dropLast :=
              nodup_last_not_in_dropLast hnd hlast
            have hnd2 : s.funcs.dropLast.Nodup := (List.dropLast_sublist s.funcs).nodup hnd
            have hcl2 : ∀ z ∈ s.funcs.dropLast, z ∈ s.seen := fun z hz =>
              hcl z (List.Sublist.mem hz (List.dropLast_sublist s.funcs))
            obtain ⟨hsg1, hm1, hmono1, hmemf, hcl1, hnd1, hsort1⟩ := processFunc_spec heq
            obtain ⟨fnode, hfget, hmemf2⟩ := hmemf
            obtain ⟨htrnd, htrmem⟩ := bwLoop_trace fuel st1 s1 _ _ heq2
              (hnd1 hnd2 hcl2) (hcl1 hcl2)
            constructor
            · refine List.nodup_cons.mpr ⟨?_, htrnd⟩
              intro hfid_tr
              rcases htrmem fid hfid_tr with hin | hnin
              · rcases hmemf2 (some fid) hin with hfin | ⟨hns, _⟩
                · exact hfid_not_drop hfin
                · exact hns hfid_seen
              · exact hnin (hmono1 _ hfid_seen)
            · intro t ht
              rcases List.mem_cons.mp ht with rfl | ht2
              · exact Or.inl hfid_mem
              · rcases htrmem t ht2 with hin | hnin
                · rcases hmemf2 (some t) hin with hfin | ⟨hns, _⟩
                  · exact Or.inl (List.Sublist.mem hfin (List.dropLast_sublist s.funcs))
                  · exact Or.inr hns
                · exact Or.inr fun hseen => hnin (hmono1 _ hseen)

/-- **C3.** The backward pass (a) never processes an Operation Node twice
(the trace of processed nodes has no duplicate), (b) terminates on every
state (the fuel `backward` supplies is never exhausted), (c) keeps the
worklist sorted ascending by generation — established by `add_func` at the
seed and preserved across each processed node — and (d) the node popped
from the tail of a sorted worklist has generation at least that of every
node remaining in the worklist. -/
theorem backward_order_and_termination :
    (∀ (st : State) (vid : Nat) (r : Bool) (st' : State) (tr : List Nat),
      backward st vid r = .ok (st', tr) → tr.Nodup) ∧
    (∀ (st : State) (vid : Nat) (r : Bool), backward st vid r ≠ .error .outOfFuel) ∧
    (∀ (st : State) (s : BwState) (fopt : Option Nat) (s2 : BwState),
      add_func st s fopt = .ok s2 → SortedBy (keyD st) s.funcs → SortedBy (keyD st) s2.funcs) ∧
    (∀ (st : State) (r : Bool) (s : BwState) (fid : Nat) (st2 : State) (s2 : BwState),
      processFunc st r s fid = .ok (st2, s2) → SortedBy (keyD st) s.funcs →
      SortedBy (keyD st2) s2.funcs) ∧
    (∀ (st : State) (s : BwState) (y : Option Nat), SortedBy (keyD st) s.funcs →
      s.funcs.getLast? = some y → ∀ x ∈ s.funcs.dropLast, keyD st x ≤ keyD st y) := by
  refine ⟨?_, ?_, ?_, ?_, ?_⟩
  · intro st vid r st' tr h
    unfold backward at h
    split at h
    · exact Except.noConfusion h
    · next s hadd =>
      rcases add_func_cases hadd with ⟨_, rfl⟩ | ⟨_, hseen, hfuncs, _⟩
      · exact (bwLoop_trace _ _ _ _ _ h List.nodup_nil
          (fun z hz => absurd hz (List.not_mem_nil z))).1
      · have hnd : s.funcs.Nodup := by
          rw [hfuncs]
          exact (sortByGen_perm _ _).symm.nodup (by simp)
        have hcl : ∀ z ∈ s.funcs, z ∈ s.seen := by
          intro z hz
          rw [hfuncs] at hz
          have hz2 := (sortByGen_perm _ _).mem_iff.mp hz
          rw [hseen]
          simp only [List.nil_append, List.mem_singleton] at hz2
          rw [hz2]
          exact List.mem_cons_self _ _
        exact (bwLoop_trace _ _ _ _ _ h hnd hcl).1
  · intro st vid r hcon
    unfold backward at hcon
    split at hcon
    · next e hadd =>
      injection hcon with h2
      exact add_func_err hadd h2
    · next s hadd =>
      refine bwLoop_not_outOfFuel _ _ _ ?_ hcon
      rcases add_func_cases hadd with ⟨_, rfl⟩ | ⟨hf, hseen, hfuncs, hvalid⟩
      · show unseenCount (seedGrad st vid) ⟨[], []⟩ + ([] : List (Option Nat)).length
            < (seedGrad st vid).funcs.length + 1
        have hle : unseenCount (seedGrad st vid) ⟨[], []⟩ ≤ (seedGrad st vid).funcs.length := by
          unfold unseenCount
          calc ((Finset.range (seedGrad st vid).funcs.length).filter
                (fun j => (some j) ∉ (⟨[], []⟩ : BwState).seen)).card
              ≤ (Finset.range (seedGrad st vid).funcs.length).card :=
                Finset.card_filter_le _ _
            _ = (seedGrad st vid).funcs.length := Finset.card_range _
        simp only [List.length_nil]
        omega
      · obtain ⟨j, hj_eq, hj⟩ := hvalid ((varD (seedGrad st vid) vid).creator) (by simp)
        have hlen : s.funcs.length = 1 := by
          rw [hfuncs, (sortByGen_perm _ _).length_eq]
          simp
        have hcnt : unseenCount (seedGrad st vid) s
            ≤ (seedGrad st vid).funcs.length - 1 := by
          unfold unseenCount
          have hsub : (Finset.range (seedGrad st vid).funcs.length).filter
                (fun j2 => (some j2) ∉ s.seen)
              ⊆ (Finset.range (seedGrad st vid).funcs.length).erase j := by
            intro a ha
            simp only [Finset.mem_filter, Finset.mem_range] at ha
            simp only [Finset.mem_erase, Finset.mem_range]
            refine ⟨?_, ha.1⟩
            intro haj
            apply ha.2
            rw [hseen, haj, hj_eq]
            exact List.mem_cons_self _ _
          calc ((Finset.range (seedGrad st vid).funcs.length).filter
                (fun j2 => (some j2) ∉ s.seen)).card
              ≤ ((Finset.range (seedGrad st vid).funcs.length).erase j).card :=
                Finset.card_le_card hsub
            _ = (seedGrad st vid).funcs.length - 1 := by
                rw [Finset.card_erase_of_mem (Finset.mem_range.mpr hj), Finset.card_range]
        unfold bwMeasure
        omega
  · exact fun st s fopt s2 h hs => add_func_sorted h hs
  · intro st r s fid st2 s2 h hs
    have hsp := processFunc_spec h
    have h2 := hsp.2.2.2.2.2.2 hs
    rw [hsp.1.keyD_eq]
    exact h2
  · exact fun st s y hs hy => sorted_pop_max hs hy

/-- Closed witness for `backward_order_and_termination`: the diamond run
processes its single Add exactly once and does not exhaust fuel. -/
theorem backward_order_and_termination_witness :
    ([0] : List Nat).Nodup ∧ backward c3State 1 false ≠ .error .outOfFuel :=
  ⟨backward_order_and_termination.1 c3State 1 false c3After [0] (Eq.refl _),
   backward_order_and_termination.2.1 c3State 1 false⟩

theorem varD_oob {st : State} {i : Nat} (h : st.vars.length ≤ i) : varD st i = default := by
  unfold varD
  rw [List.getD_eq_getElem?_getD, List.getElem?_eq_none h]
  rfl

theorem varD_mem {st : State} {i : Nat} (h : i < st.vars.length) : varD st i ∈ st.vars := by
  unfold varD
  rw [List.getD_eq_getElem _ _ h]
  exact List.getElem_mem h

theorem funcD_mem {st : State} {g : Nat} (h : g < st.funcs.length) : funcD st g ∈ st.funcs := by
  unfold funcD
  rw [List.getD_eq_getElem _ _ h]
  exact List.getElem_mem h

theorem genOKb_sound {st : State} (h : genOKb st = true) : GenOKP st := by
  unfold genOKb at h
  simp only [Bool.and_eq_true, List.all_eq_true, decide_eq_true_eq] at h
  obtain ⟨⟨h1, h2⟩, h3⟩ := h
  refine ⟨h1, h2, ?_⟩
  intro i c hc
  by_cases hlt : i < st.vars.length
  · have h4 := h3 (varD st i) (varD_mem hlt)
    rw [hc] at h4
    simpa using h4
  · rw [varD_oob (Nat.le_of_not_lt hlt)] at hc
    exact Option.noConfusion hc

theorem GenOKP.transport {st st' : State} (hs : SameGraph st st') (h : GenOKP st) :
    GenOKP st' := by
  obtain ⟨h1, h2, h3⟩ := h
  refine ⟨?_, ?_, ?_⟩
  · intro f hf i hi
    rw [hs.varD_generation i]
    exact h1 f (by rw [hs.1] at hf; exact hf) i hi
  · intro f hf o ho
    rw [hs.varD_generation o]
    exact h2 f (by rw [hs.1] at hf; exact hf) o ho
  · intro i c hc
    rw [hs.varD_generation i, hs.funcD_eq]
    exact h3 i c (by rw [hs.varD_creator i] at hc; exact hc)

theorem getElem?_funcD {st : State} {fid : Nat} {f : Function}
    (h : st.funcs[fid]? = some f) :
    f ∈ st.funcs ∧ funcD st fid = f ∧ fid < st.funcs.length := by
  obtain ⟨hlt, hget⟩ := List.getElem?_eq_some.mp h
  refine ⟨hget ▸ List.getElem_mem hlt, ?_, hlt⟩
  unfold funcD
  rw [List.getD_eq_getElem?_getD, h]
  rfl

/-! ## Which gradients one processed node writes and clears -/

theorem accumStep_state {st : State} {s : BwState} {x : Nat} {gx : Option Data}
    {st' : State} {s' : BwState} (h : accumStep st s x gx = .ok (st', s')) :
    ∃ g, st' = setGrad st x g := by
  unfold accumStep at h
  split at h
  · exact ⟨_, (pushCreator_spec h).1⟩
  · exact ⟨_, (pushCreator_spec h).1⟩
  · exact Except.noConfusion h

theorem accumList_grad_untouched : ∀ {pairs : List (Nat × Option Data)} {st : State}
    {s : BwState} {st' : State} {s' : BwState} {j : Nat},
    accumList st s pairs = .ok (st', s') → j ∉ pairs.map Prod.fst →
    (varD st' j).grad = (varD st j).grad
  | [], _, _, _, _, _, h, _ => by cases h; rfl
  | (x, gx) :: rest, st, s, st', s', j, h, hj => by
    unfold accumList at h
    split at h
    · exact Except.noConfusion h
    · next st1 s1 heq =>
      simp only [List.map_cons, List.mem_cons, not_or] at hj
      obtain ⟨g, hst1⟩ := accumStep_state heq
      rw [accumList_grad_untouched h (by exact hj.2), hst1,
        varD_setGrad_ne g (fun hxj => hj.1 hxj.symm)]

theorem varD_setGrad_none (st : State) (o : Nat) :
    (varD (setGrad st o Option.none) o).grad = Option.none := by
  by_cases hlt : o < st.vars.length
  · rw [varD_setGrad_self _ hlt]
  · have hle : st.vars.length ≤ o := Nat.le_of_not_lt hlt
    show ((st.vars.set o _).getD o default).grad = Option.none
    rw [List.set_eq_of_length_le hle, List.getD_eq_getElem?_getD,
      List.getElem?_eq_none hle]
    rfl

theorem clearOutputGrads_not_mem : ∀ (l : List Nat) (st : State) (j : Nat), j ∉ l →
    varD (clearOutputGrads st l) j = varD st j
  | [], _, _, _ => Eq.refl _
  | o :: rest, st, j, hj => by
    simp only [List.mem_cons, not_or] at hj
    unfold clearOutputGrads
    rw [clearOutputGrads_not_mem rest _ j hj.2,
      varD_setGrad_ne Option.none (fun hoj => hj.1 hoj.symm)]

theorem clearOutputGrads_mem : ∀ (l : List Nat) (st : State) (o : Nat), o ∈ l →
    (varD (clearOutputGrads st l) o).grad = Option.none
  | [], _, _, ho => absurd ho (List.not_mem_nil _)
  | o2 :: rest, st, o, ho => by
    unfold clearOutputGrads
    by_cases hor : o ∈ rest
    · exact clearOutputGrads_mem rest _ o hor
    · rcases List.mem_cons.mp ho with rfl | hor2
      · rw [clearOutputGrads_not_mem rest _ o hor]
        exact varD_setGrad_none st o
      · exact absurd hor2 hor

theorem processFunc_grads {st : State} {s : BwState} {fid : Nat} {st' : State} {s' : BwState}
    (h : processFunc st false s fid = .ok (st', s')) :
    ∃ f, st.funcs[fid]? = some f ∧
      (∀ o ∈ f.outputs, (varD st' o).grad = Option.none) ∧
      (∀ j, j ∉ f.inputs → j ∉ f.outputs → (varD st' j).grad = (varD st j).grad) := by
  unfold processFunc at h
  split at h
  · exact Except.noConfusion h
  · next f hf =>
    split at h
    · exact Except.noConfusion h
    · next gxs hgxs =>
      split at h
      · exact Except.noConfusion h
      · next st1 s1 heq =>
        cases h
        refine ⟨f, hf, ?_, ?_⟩
        · intro o ho
          simp only [if_neg (by decide : ¬ (false = true))]
          exact clearOutputGrads_mem f.outputs st1 o ho
        · intro j hji hjo
          simp only [if_neg (by decide : ¬ (false = true))]
          rw [clearOutputGrads_not_mem f.outputs st1 j hjo]
          refine accumList_grad_untouched heq ?_
          intro hjm
          obtain ⟨y, hy, hfst⟩ := List.mem_map.mp hjm
          exact hji (hfst ▸ (List.of_mem_zip hy).1)

/-! ## The master clearing lemma for the backward loop -/

theorem bwLoop_clears : ∀ (fuel : Nat) (st : State) (s : BwState) (b : Nat) (P : List Nat)
    (st' : State) (tr : List Nat),
    bwLoop false fuel st s = .ok (st', tr) →
    GenOKP st →
    SortedBy (keyD st) s.funcs →
    (∀ z ∈ s.funcs, keyD st z ≤ b) →
    (∀ g ∈ P, g < st.funcs.length) →
    (∀ g ∈ P, b ≤ (funcD st g).generation) →
    (∀ g ∈ P, ∀ o ∈ (funcD st g).outputs, (varD st o).grad = Option.none) →
    ∀ g ∈ P ++ tr, ∀ o ∈ (funcD st g).outputs, (varD st' o).grad = Option.none
  | 0, _, _, _, _, _, _, h, _, _, _, _, _, _ => Except.noConfusion h
  | fuel + 1, st, s, b, P, st', tr, h, hgen, hsort, hwb, hPlt, hPb, hPclr => by
    unfold bwLoop at h
    split at h
    · cases h
      simpa using hPclr
    · next fopt hlast =>
      cases fopt with
      | none => exact Except.noConfusion h
      | some fid =>
        simp only at h
        split at h
        · exact Except.noConfusion h
        · next st1 s1 heq =>
          split at h
          · exact Except.noConfusion h
          · next st2 tr2 heq2 =>
            cases h
            obtain ⟨f, hf, hfo_clr, hf_untouched⟩ := processFunc_grads heq
            obtain ⟨hf_mem, hf_funcD, hf_lt⟩ := getElem?_funcD hf
            obtain ⟨hsg1, hm1, hmono1, hmemf, hcl1, hnd1, hsort1⟩ := processFunc_spec heq
            obtain ⟨f2, hf2, hmemf2⟩ := hmemf
            have hff2 : f2 = f := by
              rw [hf] at hf2
              exact (Option.some.injEq _ _).mp hf2.symm
            rw [hff2] at hmemf2
            have hfid_mem : some fid ∈ s.funcs := getLast?_mem hlast
            have hb2 : keyD st (some fid) ≤ b := hwb _ hfid_mem
            have hpopmax : ∀ z ∈ s.funcs.dropLast, keyD st z ≤ keyD st (some fid) :=
              sorted_pop_max hsort hlast
            have hkeyfid : keyD st (some fid) = f.generation := by
              show (funcD st fid).generation = f.generation
              rw [hf_funcD]
            have hwb1 : ∀ z ∈ s1.funcs, keyD st z ≤ f.generation := by
              intro z hz
              rcases hmemf2 z hz with hzd | ⟨_, i, c, hi, hcrea, rfl⟩
              · exact Nat.le_trans (hpopmax z hzd) (Nat.le_of_eq hkeyfid)
              · have hgi := hgen.2.2 i c hcrea
                have hle := hgen.1 f hf_mem i hi
                show (funcD st c).generation ≤ f.generation
                omega
            have hP1clr : ∀ g ∈ P ++ [fid], ∀ o ∈ (funcD st g).outputs,
                (varD st1 o).grad = Option.none := by
              intro g hg o ho
              rcases List.mem_append.mp hg with hgP | hgfid
              · by_cases hofo : o ∈ f.outputs
                · exact hfo_clr o hofo
                · have hofi : o ∉ f.inputs := by
                    intro hofi
                    have h1 := hgen.1 f hf_mem o hofi
                    have h2 := hgen.2.1 (funcD st g) (funcD_mem (hPlt g hgP)) o ho
                    have h3 := hPb g hgP
                    omega
                  rw [hf_untouched o hofi hofo]
                  exact hPclr g hgP o ho
              · have hgfid2 : g = fid := List.mem_singleton.mp hgfid
                subst hgfid2
                rw [hf_funcD] at ho
                exact hfo_clr o ho
            have hkey1 : keyD st1 = keyD st := hsg1.keyD_eq
            have hfuncD1 : funcD st1 = funcD st := hsg1.funcD_eq
            have hlen1 : st1.funcs.length = st.funcs.length := by rw [hsg1.1]
            have ih := bwLoop_clears fuel st1 s1 f.generation (P ++ [fid]) _ tr2 heq2
              (hgen.transport hsg1)
              (by rw [hkey1]
                  exact hsort1 (hsort.sublist (List.dropLast_sublist _)))
              (by intro z hz
                  rw [hkey1]
                  exact hwb1 z hz)
              (by intro g hg
                  rw [hlen1]
                  rcases List.mem_append.mp hg with hgP | hgfid
                  · exact hPlt g hgP
                  · have hgfid2 : g = fid := List.mem_singleton.mp hgfid
                    subst hgfid2
                    exact hf_lt)
              (by intro g hg
                  rw [hfuncD1]
                  rcases List.mem_append.mp hg with hgP | hgfid
                  · have h1 := hPb g hgP
                    omega
                  · have hgfid2 : g = fid := List.mem_singleton.mp hgfid
                    subst hgfid2
                    rw [hf_funcD])
              (by intro g hg o ho
                  rw [hfuncD1] at ho
                  exact hP1clr g hg o ho)
            intro g hg o ho
            have hg2 : g ∈ (P ++ [fid]) ++ tr2 := by
              simpa [List.append_assoc] using hg
            exact ih g hg2 o (by rw [hfuncD1]; exact ho)

/-! ## C5: which gradients survive a backward pass -/

theorem foldl_max_init_le : ∀ (l : List Nat) (a : Nat), a ≤ l.foldl Nat.max a
  | [], a => Nat.le_refl a
  | x :: rest, a => Nat.le_trans (Nat.le_max_left a x) (foldl_max_init_le rest (Nat.max a x))

theorem le_foldl_max : ∀ (l : List Nat) (a x : Nat), x ∈ l → x ≤ l.foldl Nat.max a
  | [], _, x, hx => absurd hx (List.not_mem_nil x)
  | y :: rest, a, x, hx => by
    rcases List.mem_cons.mp hx with rfl | hx2
    · exact Nat.le_trans (Nat.le_max_right a x) (foldl_max_init_le rest (Nat.max a x))
    · exact le_foldl_max rest (Nat.max a y) x hx2

theorem le_maxList {l : List Nat} {x : Nat} (hx : x ∈ l) : x ≤ maxList l :=
  le_foldl_max l 0 x hx

/-- **C5 counterexample.** The claim says the final seed gradient (of
the node `backward` was called on) persists after a retain-less pass;
but the clearing step runs on the outputs of every processed node, the
seed included: after `y = add(x, x); y.backward()`, `y.grad` is `None`,
not the seeded `1`. -/
theorem seed_gradient_cleared :
    c5Diamond = .ok Option.none ∧ Option.none ≠ some (1 : Data) :=
  ⟨Eq.refl _, by decide⟩

/-- **C5 amended.** After a completed `backward(retain_grad=False)`, the
gradient of every output of every processed Operation Node is null —
the intermediates and the seed node itself (the seed gradient does not
persist); gradients of nodes that are not outputs of processed
operations (the leaves/roots) persist, and with retention requested the
intermediate and seed gradients remain populated (shown on the
three-node chain: `x.grad = 12` persists in both modes, and with
`retain_grad=True` also `t.grad = 2` and `y.grad = 1`). -/
theorem backward_clear_policy :
    (∀ (st : State) (vid : Nat) (st' : State) (tr : List Nat),
      GenOKP st → backward st vid false = .ok (st', tr) →
      ∀ g ∈ tr, ∀ o ∈ (funcD st g).outputs, (varD st' o).grad = Option.none) ∧
    c5Chain = .ok (some 12, Option.none, Option.none) ∧
    c5ChainRetain = .ok (some 12, some 2, some 1) := by
  refine ⟨?_, ?_, ?_⟩
  · intro st vid st' tr hgen h
    unfold backward at h
    split at h
    · exact Except.noConfusion h
    · next s hadd =>
      have hsgseed : SameGraph st (seedGrad st vid) := seedGrad_sameGraph st vid
      have hgen1 : GenOKP (seedGrad st vid) := hgen.transport hsgseed
      have hsort : SortedBy (keyD (seedGrad st vid)) s.funcs :=
        add_func_sorted hadd List.Pairwise.nil
      have hmaster := bwLoop_clears _ _ s
        (maxList (s.funcs.map (keyD (seedGrad st vid)))) [] st' tr h hgen1 hsort
        (fun z hz => le_maxList (List.mem_map_of_mem _ hz))
        (fun g hg => absurd hg (List.not_mem_nil g))
        (fun g hg => absurd hg (List.not_mem_nil g))
        (fun g hg => absurd hg (List.not_mem_nil g))
      intro g hg o ho
      refine hmaster g (by simpa using hg) o ?_
      rw [hsgseed.funcD_eq]
      exact ho
  · rw [show c5Chain
        = .ok (some (1 * (2 * 2) + 1 * 2 * 2 + 1 * 2 * 2), Option.none, Option.none)
      from Eq.refl _]
    norm_num
  · rw [show c5ChainRetain
        = .ok (some (1 * (2 * 2) + 1 * 2 * 2 + 1 * 2 * 2), some (1 * 2), some 1)
      from Eq.refl _]
    norm_num

/-- Closed witness for `backward_clear_policy`: the processed Add's
output — the seed — ends with a null gradient. -/
theorem backward_clear_policy_witness :
    (varD c5WAfter 1).grad = Option.none :=
  backward_clear_policy.1 c5WState 1 c5WAfter [0] (genOKb_sound (by decide)) (Eq.refl _)
    0 (by decide) 1 (by decide)

/-! ## C6: the generation invariant -/

theorem getD_append_left {α : Type} (l1 l2 : List α) (i : Nat) (d : α)
    (h : i < l1.length) : (l1 ++ l2).getD i d = l1.getD i d := by
  rw [List.getD_eq_getElem?_getD, List.getD_eq_getElem?_getD, List.getElem?_append, if_pos h]

theorem getD_set_self {α : Type} (l : List α) (i : Nat) (v d : α) (h : i < l.length) :
    (l.set i v).getD i d = v := by
  rw [List.getD_eq_getElem?_getD, List.getElem?_set_self h]
  rfl

theorem getD_set_ne {α : Type} (l : List α) {i j : Nat} (v d : α) (h : i ≠ j) :
    (l.set i v).getD j d = l.getD j d := by
  rw [List.getD_eq_getElem?_getD, List.getD_eq_getElem?_getD, List.getElem?_set_ne h]

theorem getD_oob {α : Type} (l : List α) {i : Nat} (d : α) (h : l.length ≤ i) :
    l.getD i d = d := by
  rw [List.getD_eq_getElem?_getD, List.getElem?_eq_none h]
  rfl

theorem genInvb_sound {st : State} (h : genInvb st = true) : GenInv st := by
  unfold genInvb at h
  simp only [Bool.and_eq_true, List.all_eq_true, decide_eq_true_eq] at h
  obtain ⟨⟨h1, h2⟩, h3⟩ := h
  refine ⟨⟨h1, h2, ?_⟩, ?_⟩
  · intro i c hc
    by_cases hlt : i < st.vars.length
    · have h4 := h3 (varD st i) (varD_mem hlt)
      rw [hc] at h4
      simpa using h4
    · rw [varD_oob (Nat.le_of_not_lt hlt)] at hc
      exact Option.noConfusion hc
  · intro i hc
    by_cases hlt : i < st.vars.length
    · have h4 := h3 (varD st i) (varD_mem hlt)
      rw [hc] at h4
      simpa using h4
    · rw [varD_oob (Nat.le_of_not_lt hlt)]
      rfl

theorem wfb_sound {st : State} (h : wfb st = true) : WFB st := by
  unfold wfb at h
  simp only [Bool.and_eq_true, List.all_eq_true, decide_eq_true_eq] at h
  obtain ⟨h1, h2⟩ := h
  refine ⟨fun f hf => ⟨(h1 f hf).1, (h1 f hf).2⟩, ?_⟩
  intro i c hc
  by_cases hlt : i < st.vars.length
  · have h4 := h2 (varD st i) (varD_mem hlt)
    rw [hc] at h4
    simpa using h4
  · rw [varD_oob (Nat.le_of_not_lt hlt)] at hc
    exact Option.noConfusion hc

/-- Transport of `GenInvU` along equal graphs and pointwise equal
creator/generation fields. -/
theorem genInvU_transport {st st' : State} (hf : st'.funcs = st.funcs)
    (hv : ∀ i : Nat, (varD st' i).creator = (varD st i).creator ∧
      (varD st' i).generation = (varD st i).generation)
    (h : GenInvU st) : GenInvU st' := by
  obtain ⟨h1, h2, h3⟩ := h
  refine ⟨?_, ?_, ?_⟩
  · intro f hfm
    rw [hf] at hfm
    rw [h1 f hfm]
    congr 1
    exact List.map_congr_left fun i _ => ((hv i).2).symm
  · intro f hfm o ho
    rw [hf] at hfm
    rw [(hv o).2]
    exact h2 f hfm o ho
  · intro i c hc
    rw [(hv i).2, show funcD st' = funcD st by unfold funcD; rw [hf]]
    exact h3 i c ((hv i).1 ▸ hc)

theorem genInv_transport {st st' : State} (hf : st'.funcs = st.funcs)
    (hv : ∀ i : Nat, (varD st' i).creator = (varD st i).creator ∧
      (varD st' i).generation = (varD st i).generation)
    (h : GenInv st) : GenInv st' := by
  refine ⟨genInvU_transport hf hv h.1, ?_⟩
  intro i hc
  rw [(hv i).2]
  exact h.2 i ((hv i).1 ▸ hc)

theorem sameGraph_varfields {st st' : State} (hs : SameGraph st st') (i : Nat) :
    (varD st' i).creator = (varD st i).creator ∧
    (varD st' i).generation = (varD st i).generation :=
  ⟨hs.varD_creator i, hs.varD_generation i⟩

theorem wfb_sameGraph {st st' : State} (hs : SameGraph st st') (h : WFB st) : WFB st' := by
  refine ⟨?_, ?_⟩
  · intro f hf
    rw [hs.1] at hf
    rw [hs.varsLength]
    exact h.1 f hf
  · intro i c hc
    rw [show st'.funcs = st.funcs from hs.1]
    exact h.2 i c (by rw [hs.varD_creator i] at hc; exact hc)

/-- Appending root variables (no creator, generation 0) changes no
existing variable's creator or generation — dereferencing past the old
length produces the same observable fields as the out-of-range default. -/
theorem varD_append_roots {st : State} {news : List Variable}
    (hnews : ∀ v ∈ news, v.creator = Option.none ∧ v.generation = 0) (i : Nat) :
    (varD { st with vars := st.vars ++ news } i).creator = (varD st i).creator ∧
    (varD { st with vars := st.vars ++ news } i).generation = (varD st i).generation := by
  by_cases hlt : i < st.vars.length
  · have heq : varD { st with vars := st.vars ++ news } i = varD st i := by
      show (st.vars ++ news).getD i default = st.vars.getD i default
      exact getD_append_left st.vars news i default hlt
    rw [heq]
    exact ⟨Eq.refl _, Eq.refl _⟩
  · have hle : st.vars.length ≤ i := Nat.le_of_not_lt hlt
    rw [varD_oob hle]
    show ((st.vars ++ news).getD i default).creator = Option.none ∧
      ((st.vars ++ news).getD i default).generation = 0
    rw [List.getD_eq_getElem?_getD, List.getElem?_append_right hle]
    cases hv : news[i - st.vars.length]? with
    | none => exact ⟨Eq.refl _, Eq.refl _⟩
    | some v =>
      obtain ⟨hlt2, hget⟩ := List.getElem?_eq_some.mp hv
      obtain ⟨hvc, hvg⟩ := hnews v (hget ▸ List.getElem_mem hlt2)
      exact ⟨hvc, hvg⟩

theorem graphInv_append_roots {st : State} {news : List Variable}
    (hnews : ∀ v ∈ news, v.creator = Option.none ∧ v.generation = 0)
    (hgen : GenInv st) (hwf : WFB st) :
    GenInv { st with vars := st.vars ++ news } ∧ WFB { st with vars := st.vars ++ news } := by
  refine ⟨@genInv_transport st { st with vars := st.vars ++ news } (Eq.refl _)
    (varD_append_roots hnews) hgen, ?_, ?_⟩
  · intro f hf
    obtain ⟨hi, ho⟩ := hwf.1 f hf
    have hlen : st.vars.length ≤ (st.vars ++ news).length := by
      rw [List.length_append]
      omega
    exact ⟨fun i him => Nat.lt_of_lt_of_le (hi i him) hlen,
      fun o hom => Nat.lt_of_lt_of_le (ho o hom) hlen⟩
  · intro i c hc
    rw [(varD_append_roots hnews i).1] at hc
    exact hwf.2 i c hc

theorem as_variable_news1 {st : State} {obj : PyVal} {p : Nat × State}
    (h : as_variable st obj = .ok p) :
    ∃ news, (∀ v ∈ news, v.creator = Option.none ∧ v.generation = 0) ∧
      p.2.vars = st.vars ++ news := by
  cases obj with
  | var i =>
    cases h
    exact ⟨[], fun v hv => absurd hv (List.not_mem_nil v), (List.append_nil _).symm⟩
  | pynone =>
    cases h
    refine ⟨[{ data := Option.none }], ?_, Eq.refl _⟩
    intro v hv
    rw [List.mem_singleton.mp hv]
    exact ⟨Eq.refl _, Eq.refl _⟩
  | scalar q => exact Except.noConfusion h
  | array q =>
    cases h
    refine ⟨[{ data := some q }], ?_, Eq.refl _⟩
    intro v hv
    rw [List.mem_singleton.mp hv]
    exact ⟨Eq.refl _, Eq.refl _⟩

theorem as_variable_list_news : ∀ {args : List PyVal} {st : State} {p : List Nat × State},
    as_variable_list st args = .ok p →
    ∃ news, (∀ v ∈ news, v.creator = Option.none ∧ v.generation = 0) ∧
      p.2.vars = st.vars ++ news
  | [], st, p, h => by
    cases h
    exact ⟨[], fun v hv => absurd hv (List.not_mem_nil v), (List.append_nil _).symm⟩
  | x :: rest, st, p, h => by
    unfold as_variable_list at h
    split at h
    · exact Except.noConfusion h
    · next i st1 heq =>
      split at h
      · exact Except.noConfusion h
      · next is st2 heq2 =>
        cases h
        obtain ⟨n1, hn1, hv1⟩ := as_variable_news1 heq
        obtain ⟨n2, hn2, hv2⟩ := as_variable_list_news heq2
        refine ⟨n1 ++ n2, ?_, ?_⟩
        · intro v hv
          rcases List.mem_append.mp hv with hv | hv
          · exact hn1 v hv
          · exact hn2 v hv
        · show st2.vars = st.vars ++ (n1 ++ n2)
          rw [hv2, hv1, List.append_assoc]

theorem argsValid_mono {st st' : State} (hlen : st.vars.length ≤ st'.vars.length)
    {args : List PyVal} (h : argsValid st args = true) : argsValid st' args = true := by
  unfold argsValid at h ⊢
  simp only [List.all_eq_true] at h ⊢
  intro a ha
  have h2 := h a ha
  cases a <;> simp_all
  omega

theorem as_variable_list_ids : ∀ {args : List PyVal} {st : State} {p : List Nat × State},
    as_variable_list st args = .ok p → argsValid st args = true →
    ∀ i ∈ p.1, i < p.2.vars.length
  | [], st, p, h, _ => by
    cases h
    intro i hi
    exact absurd hi (List.not_mem_nil i)
  | x :: rest, st, p, h, hargs => by
    unfold as_variable_list at h
    split at h
    · exact Except.noConfusion h
    · next i1 st1 heq =>
      split at h
      · exact Except.noConfusion h
      · next is st2 heq2 =>
        cases h
        unfold argsValid at hargs
        simp only [List.all_eq_true] at hargs
        have hx := hargs x (List.mem_cons_self x rest)
        obtain ⟨n1, _, hv1⟩ := as_variable_news1 heq
        obtain ⟨n2, _, hv2⟩ := as_variable_list_news heq2
        have hlen1 : st.vars.length ≤ st1.vars.length := by
          rw [hv1, List.length_append]
          omega
        have hlen2 : st1.vars.length ≤ st2.vars.length := by
          rw [hv2, List.length_append]
          omega
        have hrests : argsValid st1 rest = true := by
          refine argsValid_mono hlen1 ?_
          unfold argsValid
          simp only [List.all_eq_true]
          intro a ha
          exact hargs a (List.mem_cons_of_mem x ha)
        intro i hi
        rcases List.mem_cons.mp hi with rfl | hi2
        · refine Nat.lt_of_lt_of_le ?_ hlen2
          cases x with
          | var j =>
            simp only [decide_eq_true_eq] at hx
            cases heq
            exact hx
          | pynone =>
            cases heq
            simp [List.length_append]
          | scalar q => exact Except.noConfusion heq
          | array q =>
            cases heq
            simp [List.length_append]
        · exact as_variable_list_ids heq2 hrests i hi2

theorem mkVariable_graphInv {st : State} {d : PyVal} {out : Nat} {st' : State}
    (hgen : GenInv st) (hwf : WFB st) (h : mkVariable st d = .ok (out, st')) :
    GenInv st' ∧ WFB st' := by
  cases d with
  | pynone =>
    cases h
    refine graphInv_append_roots ?_ hgen hwf
    intro v hv
    rw [List.mem_singleton.mp hv]
    exact ⟨Eq.refl _, Eq.refl _⟩
  | array q =>
    cases h
    refine graphInv_append_roots ?_ hgen hwf
    intro v hv
    rw [List.mem_singleton.mp hv]
    exact ⟨Eq.refl _, Eq.refl _⟩
  | scalar q => exact Except.noConfusion h
  | var i => exact Except.noConfusion h

theorem link_graphInv (st1 : State) (op : Op) (ids : List Nat) (y : Data)
    (hgen1 : GenInv st1) (hwf1 : WFB st1) (hids : ∀ i ∈ ids, i < st1.vars.length) :
    GenInv (linkState st1 op ids y) ∧ WFB (linkState st1 op ids y) := by
  obtain ⟨⟨hU1, hU2, hU3⟩, hC4⟩ := hgen1
  obtain ⟨hW1, hW2⟩ := hwf1
  set n := st1.vars.length with hn
  set fid := st1.funcs.length with hfid
  set g := maxList (ids.map fun i => (varD st1 i).generation) with hg
  set vy : Variable := { data := some y } with hvy
  set fnew : Function := { op := op, inputs := ids, outputs := [n], generation := g }
    with hfnew
  have hlen3 : (st1.vars ++ [vy]).length = n + 1 := by
    simp [hn]
  have hFfuncs : (linkState st1 op ids y).funcs = st1.funcs ++ [fnew] := Eq.refl _
  have hFfuncD_lt : ∀ c, c < fid → funcD (linkState st1 op ids y) c = funcD st1 c := by
    intro c hc
    show (st1.funcs ++ [fnew]).getD c default = st1.funcs.getD c default
    exact getD_append_left st1.funcs [fnew] c default hc
  have hFfuncD_fid : funcD (linkState st1 op ids y) fid = fnew := by
    show (st1.funcs ++ [fnew]).getD fid default = fnew
    exact getD_append_length st1.funcs fnew default
  have hFvars_len : (linkState st1 op ids y).vars.length = n + 1 := by
    show ((st1.vars ++ [vy]).set n _).length = n + 1
    rw [List.length_set, hlen3]
  have hFvar_lt : ∀ i, i < n → varD (linkState st1 op ids y) i = varD st1 i := by
    intro i hi
    show ((st1.vars ++ [vy]).set n _).getD i default = st1.vars.getD i default
    rw [getD_set_ne _ _ _ (Nat.ne_of_gt hi)]
    exact getD_append_left st1.vars [vy] i default hi
  have hFvar_n : varD (linkState st1 op ids y) n
      = { vy with creator := some fid, generation := fnew.generation + 1 } := by
    show ((st1.vars ++ [vy]).set n
      { varD { st1 with
          vars := st1.vars ++ [vy],
          funcs := st1.funcs ++ [fnew] } n with
        creator := some fid,
        generation := (funcD { st1 with
          vars := st1.vars ++ [vy],
          funcs := st1.funcs ++ [fnew] } fid).generation + 1 }).getD n default = _
    rw [getD_set_self _ _ _ _ (by rw [hlen3]; omega)]
    have h1 : varD { st1 with vars := st1.vars ++ [vy], funcs := st1.funcs ++ [fnew] } n
        = vy := getD_append_length st1.vars vy default
    have h2 : funcD { st1 with vars := st1.vars ++ [vy], funcs := st1.funcs ++ [fnew] } fid
        = fnew := getD_append_length st1.funcs fnew default
    rw [h1, h2]
  have hFvar_gt : ∀ i, n < i → varD (linkState st1 op ids y) i = default := by
    intro i hi
    show ((st1.vars ++ [vy]).set n _).getD i default = default
    refine getD_oob _ _ ?_
    rw [List.length_set, hlen3]
    omega
  constructor
  · refine ⟨⟨?_, ?_, ?_⟩, ?_⟩
    · intro f hf
      rw [hFfuncs] at hf
      rcases List.mem_append.mp hf with hf1 | hf2
      · rw [hU1 f hf1]
        congr 1
        refine List.map_congr_left ?_
        intro i him
        rw [hFvar_lt i ((hW1 f hf1).1 i him)]
      · rw [List.mem_singleton.mp hf2]
        show g = maxList (ids.map fun i => (varD (linkState st1 op ids y) i).generation)
        rw [hg]
        congr 1
        refine List.map_congr_left ?_
        intro i him
        rw [hFvar_lt i (hids i him)]
    · intro f hf o ho
      rw [hFfuncs] at hf
      rcases List.mem_append.mp hf with hf1 | hf2
      · rw [hFvar_lt o ((hW1 f hf1).2 o ho)]
        exact hU2 f hf1 o ho
      · rw [List.mem_singleton.mp hf2] at ho ⊢
        have ho2 : o = n := List.mem_singleton.mp ho
        rw [ho2, hFvar_n]
    · intro i c hc
      rcases Nat.lt_trichotomy i n with hlt | rfl | hgt
      · rw [hFvar_lt i hlt] at hc ⊢
        rw [hFfuncD_lt c (hW2 i c hc)]
        exact hU3 i c hc
      · rw [hFvar_n] at hc ⊢
        have hcfid : c = fid := by
          simpa using hc.symm
        rw [hcfid, hFfuncD_fid]
      · rw [hFvar_gt i hgt] at hc
        exact Option.noConfusion hc
    · intro i hc
      rcases Nat.lt_trichotomy i n with hlt | rfl | hgt
      · rw [hFvar_lt i hlt] at hc ⊢
        exact hC4 i hc
      · rw [hFvar_n] at hc
        exact Option.noConfusion hc
      · rw [hFvar_gt i hgt]
        rfl
  · refine ⟨?_, ?_⟩
    · intro f hf
      rw [hFvars_len]
      rw [hFfuncs] at hf
      rcases List.mem_append.mp hf with hf1 | hf2
      · exact ⟨fun i him => Nat.lt_succ_of_lt ((hW1 f hf1).1 i him),
          fun o hom => Nat.lt_succ_of_lt ((hW1 f hf1).2 o hom)⟩
      · rw [List.mem_singleton.mp hf2]
        refine ⟨fun i him => Nat.lt_succ_of_lt (hids i him), ?_⟩
        intro o hom
        rw [List.mem_singleton.mp hom]
        omega
    · intro i c hc
      rw [show (linkState st1 op ids y).funcs.length = fid + 1 from by
        rw [hFfuncs]
        simp [hfid]]
      rcases Nat.lt_trichotomy i n with hlt | rfl | hgt
      · rw [hFvar_lt i hlt] at hc
        exact Nat.lt_succ_of_lt (hW2 i c hc)
      · rw [hFvar_n] at hc
        have hcfid : c = fid := by simpa using hc.symm
        omega
      · rw [hFvar_gt i hgt] at hc
        exact Option.noConfusion hc

theorem callFunction_graphInv {st : State} {op : Op} {args : List PyVal} {out : Nat}
    {st' : State} (hgen : GenInv st) (hwf : WFB st) (hargs : argsValid st args = true)
    (h : callFunction st op args = .ok (out, st')) : GenInv st' ∧ WFB st' := by
  unfold callFunction at h
  split at h
  · exact Except.noConfusion h
  · next ids st1 heq =>
    split at h
    · exact Except.noConfusion h
    · next y hy =>
      obtain ⟨news, hnews, hvars1⟩ := as_variable_list_news heq
      have hfuncs1 : st1.funcs = st.funcs := (as_variable_list_preserves heq).2
      have hcfg1 : st1.cfg = st.cfg := (as_variable_list_preserves heq).1
      have hst1eq : st1 = { st with vars := st.vars ++ news } := by
        show st1 = ({ vars := st.vars ++ news, funcs := st.funcs, cfg := st.cfg } : State)
        rw [← hvars1, ← hfuncs1, ← hcfg1]
      have hst1inv : GenInv st1 ∧ WFB st1 := by
        rw [hst1eq]
        exact graphInv_append_roots hnews hgen hwf
      have hids : ∀ i ∈ ids, i < st1.vars.length := as_variable_list_ids heq hargs
      split at h
      · cases h
        exact link_graphInv st1 op ids y hst1inv.1 hst1inv.2 hids
      · cases h
        refine graphInv_append_roots ?_ hst1inv.1 hst1inv.2
        intro v hv
        rw [List.mem_singleton.mp hv]
        exact ⟨Eq.refl _, Eq.refl _⟩

theorem backward_graphInv {st : State} {vid : Nat} {r : Bool} {st' : State} {tr : List Nat}
    (hgen : GenInv st) (hwf : WFB st) (h : backward st vid r = .ok (st', tr)) :
    GenInv st' ∧ WFB st' := by
  have hs : SameGraph st st' := backward_sameGraph h
  exact ⟨genInv_transport hs.1 (sameGraph_varfields hs) hgen, wfb_sameGraph hs hwf⟩

theorem unchain_preserves_aux (st : State) (vid : Nat) :
    (∀ j, (varD (unchain st vid) j).generation = (varD st j).generation ∧
      ((varD (unchain st vid) j).creator = (varD st j).creator ∨
        (varD (unchain st vid) j).creator = Option.none)) := by
  intro j
  by_cases hj : vid = j
  · subst hj
    by_cases hlt : vid < st.vars.length
    · have hv : varD (unchain st vid) vid = { varD st vid with creator := Option.none } := by
        show (st.vars.set vid _).getD vid default = _
        exact getD_set_self _ _ _ _ hlt
      rw [hv]
      exact ⟨Eq.refl _, Or.inr (Eq.refl _)⟩
    · have hle := Nat.le_of_not_lt hlt
      have hv : varD (unchain st vid) vid = varD st vid := by
        show (st.vars.set vid _).getD vid default = st.vars.getD vid default
        rw [List.set_eq_of_length_le hle]
      rw [hv]
      exact ⟨Eq.refl _, Or.inl (Eq.refl _)⟩
  · have hv : varD (unchain st vid) j = varD st j := by
      show (st.vars.set vid _).getD j default = st.vars.getD j default
      exact getD_set_ne _ _ _ hj
    rw [hv]
    exact ⟨Eq.refl _, Or.inl (Eq.refl _)⟩

/-- **C6 counterexample.** The claim's clause "a Value Node with no
creator has generation 0" fails after `unchain`: `y = add(x, x)` has
generation 1; `y.unchain()` nulls the creator but leaves the generation,
so `y` has no creator and generation `1 ≠ 0`. -/
theorem unchain_keeps_generation :
    c6Unchain = .ok (Option.none, 1) ∧ (1 : Nat) ≠ 0 :=
  ⟨Eq.refl _, by decide⟩

/-- **C6 amended.** Every graph-building operation preserves the
generation invariant — each linked Operation Node's generation is the
max of its inputs' generations (`maxList [] = 0` covers the empty case),
each recorded output sits at the operation's generation plus one (set by
`set_creator`, whose stamping is stated explicitly), and a Value Node
with no creator has generation 0 **unless** its creator link was severed
by `unchain`, which nulls the creator, changes no generation, links no
operation, and keeps the rest of the invariant (`GenInvU`). -/
theorem generation_invariant :
    (∀ (st : State) (d : PyVal) (out : Nat) (st' : State),
      GenInv st → WFB st → mkVariable st d = .ok (out, st') → GenInv st' ∧ WFB st') ∧
    (∀ (st : State) (op : Op) (args : List PyVal) (out : Nat) (st' : State),
      GenInv st → WFB st → argsValid st args = true →
      callFunction st op args = .ok (out, st') → GenInv st' ∧ WFB st') ∧
    (∀ (st : State) (vid : Nat) (r : Bool) (st' : State) (tr : List Nat),
      GenInv st → WFB st → backward st vid r = .ok (st', tr) → GenInv st' ∧ WFB st') ∧
    (∀ (st : State) (vid fid : Nat), vid < st.vars.length →
      (varD (set_creator st vid fid) vid).creator = some fid ∧
      (varD (set_creator st vid fid) vid).generation = (funcD st fid).generation + 1) ∧
    (∀ (st : State) (vid : Nat),
      (∀ j, (varD (unchain st vid) j).generation = (varD st j).generation) ∧
      (unchain st vid).funcs = st.funcs ∧
      (GenInvU st → GenInvU (unchain st vid))) := by
  refine ⟨?_, ?_, ?_, ?_, ?_⟩
  · exact fun st d out st' hgen hwf h => mkVariable_graphInv hgen hwf h
  · exact fun st op args out st' hgen hwf hargs h => callFunction_graphInv hgen hwf hargs h
  · exact fun st vid r st' tr hgen hwf h => backward_graphInv hgen hwf h
  · intro st vid fid h
    rw [varD_set_creator_self h]
    exact ⟨Eq.refl _, Eq.refl _⟩
  · intro st vid
    have hvar := unchain_preserves_aux st vid
    refine ⟨fun j => (hvar j).1, Eq.refl _, ?_⟩
    intro hU
    refine ⟨?_, ?_, ?_⟩
    · intro f hf
      rw [hU.1 f hf]
      congr 1
      exact List.map_congr_left fun i _ => ((hvar i).1).symm
    · intro f hf o ho
      rw [(hvar o).1]
      exact hU.2.1 f hf o ho
    · intro i c hc
      rcases (hvar i).2 with heq | hnone
      · rw [(hvar i).1]
        have hfd : funcD (unchain st vid) = funcD st := Eq.refl _
        rw [hfd]
        refine hU.2.2 i c ?_
        rw [heq] at hc
        exact hc
      · rw [hnone] at hc
        exact Option.noConfusion hc

/-- Closed witness for `generation_invariant`: allocating a root
Variable from the empty state preserves the invariant. -/
theorem generation_invariant_witness : GenInv c6WitSt ∧ WFB c6WitSt :=
  generation_invariant.1 st0 (.array 7) 0 c6WitSt (genInvb_sound (by decide))
    (wfb_sound (by decide)) (Eq.refl _)

end Plum
